import Mathlib

set_option maxHeartbeats 1000000

set_option linter.unusedVariables false

/-!
Verification development for the text-buffer engine: the persistent chunk
tree (src/chunk_tree.rs), the chunk cache (src/memstore.rs) and the
overlapping-window search iterator (src/chunked_search.rs).

Bytes are modelled as natural numbers and byte slices as lists.  Calls that
the source aborts with an out-of-range message are modelled as returning
none.
-/

/-! ## Persistent chunk tree (src/chunk_tree.rs) -/

inductive ChunkTree where
  | leaf (data : List Nat)
  | internal (left mid right : ChunkTree) (size : Nat)
deriving DecidableEq

namespace ChunkTree

/-- ChunkTree::len: leaves report their slice length, internal nodes the
cached size. -/
def len : ChunkTree → Nat
  | .leaf data => data.length
  | .internal _ _ _ size => size

/-- ChunkTree::from_slice, recursively halving the data at its midpoint
until each part has length at most N.  The extra Nat argument bounds the
recursion depth; with fuel = data.length it never runs out when N ≥ 1 (the
source asserts N > 0 in ChunkTree::new), since each half of a slice of
length at least 2 is strictly shorter than the slice. -/
def fromSliceF (N : Nat) : Nat → List Nat → ChunkTree
  | 0, data => .leaf data
  | fuel+1, data =>
    if data.length ≤ N then .leaf data
    else
      .internal (fromSliceF N fuel (data.take (data.length / 2)))
        (.leaf [])
        (fromSliceF N fuel (data.drop (data.length / 2)))
        data.length

def fromSlice (N : Nat) (data : List Nat) : ChunkTree :=
  fromSliceF N data.length data

/-- ChunkTree::collect_bytes: in-order concatenation left, mid, right. -/
def collect_bytes : ChunkTree → List Nat
  | .leaf data => data
  | .internal left mid right _ =>
      left.collect_bytes ++ mid.collect_bytes ++ right.collect_bytes

/-- The node-local size invariant of the spec, required at every internal
node of the tree: size = left.len() + mid.len() + right.len(). -/
def wf : ChunkTree → Prop
  | .leaf _ => True
  | .internal left mid right size =>
      wf left ∧ wf mid ∧ wf right ∧ size = left.len + mid.len + right.len

instance wfDecidable : (t : ChunkTree) → Decidable (wf t)
  | .leaf _ => .isTrue trivial
  | .internal l m r s =>
    have dl : Decidable (wf l) := wfDecidable l
    have dm : Decidable (wf m) := wfDecidable m
    have dr : Decidable (wf r) := wfDecidable r
    show Decidable (wf l ∧ wf m ∧ wf r ∧ s = l.len + m.len + r.len) from
      inferInstance

/-- ChunkTree::insert.  On a leaf the source slices leaf_data at index,
which aborts when index > leaf_data.len(); this is the none case.  On an
internal node it recurses into the child containing index, ties broken
toward the earlier child, and rebuilds the node with a recomputed size. -/
def insert (N : Nat) : ChunkTree → Nat → List Nat → Option ChunkTree
  | .leaf leaf_data, index, data =>
    if index ≤ leaf_data.length then
      some (.internal (fromSlice N (leaf_data.take index)) (fromSlice N data)
        (fromSlice N (leaf_data.drop index))
        (leaf_data.length + data.length))
    else
      none
  | .internal left mid right _size, index, data =>
    if index ≤ left.len then
      (insert N left index data).map fun new_left =>
        .internal new_left mid right (new_left.len + mid.len + right.len)
    else if index ≤ left.len + mid.len then
      (insert N mid (index - left.len) data).map fun new_mid =>
        .internal left new_mid right (left.len + new_mid.len + right.len)
    else if index ≤ left.len + mid.len + right.len then
      (insert N right (index - left.len - mid.len) data).map fun new_right =>
        .internal left mid new_right (left.len + mid.len + new_right.len)
    else
      none

/-- ChunkTree::remove on the range [rs, re).  The source's Range helpers
become arithmetic: range_shift_left is saturating subtraction on both ends
and range_cap takes the minimum with the child length; Range::len() is
re - rs (saturating).  The source's two trailing assertions are modelled as
a guard whose failure yields none.  Both constructor arms carry the same
leading checks the source performs on self.len(). -/
def remove (N : Nat) : ChunkTree → Nat → Nat → Option ChunkTree
  | .leaf data, rs, re =>
    if data.length = 0 ∧ re ≤ rs then some (.leaf [])
    else if data.length ≤ rs ∨ data.length < re then none
    else
      some (.internal (fromSlice N (data.take rs)) (fromSlice N [])
        (fromSlice N (data.drop re)) (data.length - (re - rs)))
  | .internal left mid right size, rs, re =>
    if size = 0 ∧ re ≤ rs then some (.leaf [])
    else if size ≤ rs ∨ size < re then none
    else if size < rs then some (.internal left mid right size)
    else
      (if rs < left.len then
          remove N left (min rs left.len) (min re left.len)
        else some left).bind fun new_left =>
      (if rs - left.len < mid.len then
          remove N mid (min (rs - left.len) mid.len)
            (min (re - left.len) mid.len)
        else some mid).bind fun new_mid =>
      (if rs - (left.len + mid.len) < right.len then
          remove N right (min (rs - (left.len + mid.len)) right.len)
            (min (re - (left.len + mid.len)) right.len)
        else some right).bind fun new_right =>
      let new_size := new_left.len + new_mid.len + new_right.len
      if size ≥ new_size ∧ size - (min re size - min rs size) = new_size then
        some (.internal new_left new_mid new_right new_size)
      else none

/-- ChunkTree::new builds an empty tree (the source also asserts N > 0). -/
def new (N : Nat) : ChunkTree := fromSlice N []

/-- An edit on a tree: an insertion at an index, or a removal of a byte
range [rs, re). -/
inductive EditOp where
  | ins (index : Nat) (data : List Nat)
  | del (rs re : Nat)

def applyOp (N : Nat) (t : ChunkTree) : EditOp → Option ChunkTree
  | .ins i d => insert N t i d
  | .del rs re => remove N t rs re

def applyOps (N : Nat) : ChunkTree → List EditOp → Option ChunkTree
  | t, [] => some t
  | t, op :: ops => (applyOp N t op).bind fun t' => applyOps N t' ops

/-- A proper edit: removals name byte ranges [rs, re), so rs ≤ re. -/
def opOk : EditOp → Prop
  | .ins _ _ => True
  | .del rs re => rs ≤ re

instance : DecidablePred opOk := fun o =>
  match o with
  | .ins _ _ => .isTrue trivial
  | .del rs re => (inferInstance : Decidable (rs ≤ re))

end ChunkTree

/-! ## Store model of the reference-counted sharing of chunk_tree.rs

To express the structural-sharing guarantee (an old root is a readable
snapshot unaffected by later edits) the Arc pointers of the source are made
explicit: nodes live in an append-only store and an Arc becomes an index
into it.  Arc::new is an append at the end of the store; cloning an Arc is
reusing the index; existing cells are never written.  insertH and removeH
below mirror ChunkTree::insert and ChunkTree::remove line by line under
this reading. -/

inductive HNode where
  | hleaf (data : List Nat)
  | hinternal (left mid right : Nat) (size : Nat)
deriving DecidableEq

abbrev HStore := List HNode

def childrenBelowB (i : Nat) : HNode → Bool
  | .hleaf _ => true
  | .hinternal l m r _ => decide (l < i) && decide (m < i) && decide (r < i)

/-- A store is acyclic: every internal node points to strictly earlier
cells.  Freshly allocated nodes reference only already-present nodes, so
every store the operations produce satisfies this. -/
def storeOk (st : HStore) : Prop :=
  ∀ i < st.length, childrenBelowB i (st.getD i (.hleaf [])) = true

instance (st : HStore) : Decidable (storeOk st) :=
  inferInstanceAs (Decidable (∀ i < st.length, _ = true))

/-- The node length read through the store: a leaf reports its slice
length, an internal node its cached size (ChunkTree::len). -/
def lenH (st : HStore) (i : Nat) : Nat :=
  match st[i]? with
  | some (.hleaf d) => d.length
  | some (.hinternal _ _ _ s) => s
  | none => 0

/-- In-order byte collection through the store (ChunkTree::collect_bytes);
the Nat argument bounds the recursion depth, and any bound above the root
index is enough on an acyclic store. -/
def collectH (st : HStore) : Nat → Nat → List Nat
  | 0, _ => []
  | fuel+1, i =>
    match st[i]? with
    | some (.hleaf d) => d
    | some (.hinternal l m r _) =>
        collectH st fuel l ++ collectH st fuel m ++ collectH st fuel r
    | none => []

def collectAt (st : HStore) (i : Nat) : List Nat := collectH st st.length i

/-- ChunkTree::from_slice in the store model: each leaf and each internal
node is a fresh allocation at the end of the store.  The Nat argument
bounds the recursion depth as in fromSliceF. -/
def fromSliceHF (N : Nat) : Nat → HStore → List Nat → HStore × Nat
  | 0, st, data => (st ++ [.hleaf data], st.length)
  | fuel+1, st, data =>
    if data.length ≤ N then (st ++ [.hleaf data], st.length)
    else
      let p1 := fromSliceHF N fuel st (data.take (data.length / 2))
      let p2 := fromSliceHF N fuel p1.1 (data.drop (data.length / 2))
      let st3 := p2.1 ++ [.hleaf []]
      (st3 ++ [.hinternal p1.2 p2.1.length p2.2 data.length], st3.length)

def fromSliceH (N : Nat) (st : HStore) (data : List Nat) : HStore × Nat :=
  fromSliceHF N data.length st data

/-- ChunkTree::insert in the store model: clones of untouched siblings are
index reuses, every new node is appended at the end.  The Nat argument
bounds the recursion depth along the path (any bound above the root index
is enough on an acyclic store). -/
def insertH (N : Nat) : Nat → HStore → Nat → Nat → List Nat → Option (HStore × Nat)
  | 0, _, _, _, _ => none
  | fuel+1, st, i, index, data =>
    match st[i]? with
    | none => none
    | some (.hleaf d) =>
      if index ≤ d.length then
        some ((fromSliceH N
            (fromSliceH N (fromSliceH N st (d.take index)).1 data).1
            (d.drop index)).1 ++
          [.hinternal (fromSliceH N st (d.take index)).2
            (fromSliceH N (fromSliceH N st (d.take index)).1 data).2
            (fromSliceH N
              (fromSliceH N (fromSliceH N st (d.take index)).1 data).1
              (d.drop index)).2
            (d.length + data.length)],
          (fromSliceH N
            (fromSliceH N (fromSliceH N st (d.take index)).1 data).1
            (d.drop index)).1.length)
      else none
    | some (.hinternal l m r _s) =>
      if index ≤ lenH st l then
        (insertH N fuel st l index data).map fun p =>
          (p.1 ++ [.hinternal p.2 m r (lenH p.1 p.2 + lenH p.1 m + lenH p.1 r)],
            p.1.length)
      else if index ≤ lenH st l + lenH st m then
        (insertH N fuel st m (index - lenH st l) data).map fun p =>
          (p.1 ++ [.hinternal l p.2 r (lenH p.1 l + lenH p.1 p.2 + lenH p.1 r)],
            p.1.length)
      else if index ≤ lenH st l + lenH st m + lenH st r then
        (insertH N fuel st r (index - lenH st l - lenH st m) data).map fun p =>
          (p.1 ++ [.hinternal l m p.2 (lenH p.1 l + lenH p.1 m + lenH p.1 p.2)],
            p.1.length)
      else none

/-- ChunkTree::remove in the store model, mirroring ChunkTree.remove with
explicit allocation; child lengths are read through the current store
(extensions never change an existing node). -/
def removeH (N : Nat) : Nat → HStore → Nat → Nat → Nat → Option (HStore × Nat)
  | 0, _, _, _, _ => none
  | fuel+1, st, i, rs, re =>
    if lenH st i = 0 ∧ re ≤ rs then some (st ++ [.hleaf []], st.length)
    else if lenH st i ≤ rs ∨ lenH st i < re then none
    else
      match st[i]? with
      | none => none
      | some (.hleaf d) =>
        some ((fromSliceH N (fromSliceH N (fromSliceH N st (d.take rs)).1 []).1
            (d.drop re)).1 ++
          [.hinternal (fromSliceH N st (d.take rs)).2
            (fromSliceH N (fromSliceH N st (d.take rs)).1 []).2
            (fromSliceH N (fromSliceH N (fromSliceH N st (d.take rs)).1 []).1
              (d.drop re)).2
            (d.length - (re - rs))],
          (fromSliceH N (fromSliceH N (fromSliceH N st (d.take rs)).1 []).1
            (d.drop re)).1.length)
      | some (.hinternal l m r s) =>
        if s < rs then some (st ++ [.hinternal l m r s], st.length)
        else
          (if rs < lenH st l then
              removeH N fuel st l (min rs (lenH st l)) (min re (lenH st l))
            else some (st, l)).bind fun pl =>
          (if rs - lenH pl.1 l < lenH pl.1 m then
              removeH N fuel pl.1 m (min (rs - lenH pl.1 l) (lenH pl.1 m))
                (min (re - lenH pl.1 l) (lenH pl.1 m))
            else some (pl.1, m)).bind fun pm =>
          (if rs - (lenH pm.1 l + lenH pm.1 m) < lenH pm.1 r then
              removeH N fuel pm.1 r
                (min (rs - (lenH pm.1 l + lenH pm.1 m)) (lenH pm.1 r))
                (min (re - (lenH pm.1 l + lenH pm.1 m)) (lenH pm.1 r))
            else some (pm.1, r)).bind fun pr =>
          if s ≥ lenH pr.1 pl.2 + lenH pr.1 pm.2 + lenH pr.1 pr.2 ∧
              s - (min re s - min rs s) =
                lenH pr.1 pl.2 + lenH pr.1 pm.2 + lenH pr.1 pr.2 then
            some (pr.1 ++ [.hinternal pl.2 pm.2 pr.2
                (lenH pr.1 pl.2 + lenH pr.1 pm.2 + lenH pr.1 pr.2)],
              pr.1.length)
          else none

/-! ## Chunk cache (src/memstore.rs)

The HashMap of Memstore becomes an association list of entries; the
LoadStore collaborator's load is a pure function of its arguments, and the
backing-store traffic of each operation is returned as an explicit event
list so the claims about how often load and store are called can be
stated. -/

inductive Chunk where
  | loaded (data : List Nat) (need_store : Bool)
  | empty
deriving DecidableEq

structure ChunkIndex where
  offset : Nat
  chunk_size : Nat
deriving DecidableEq

inductive StoreEvent where
  | loadEv (offset size : Nat)
  | storeEv (offset : Nat) (data : List Nat)
deriving DecidableEq

structure Memstore where
  chunks : List (ChunkIndex × Chunk)
deriving DecidableEq

def findChunk : List (ChunkIndex × Chunk) → ChunkIndex → Option Chunk
  | [], _ => none
  | (j, c) :: rest, i => if j = i then some c else findChunk rest i

/-- Memstore::get: return the cached entry for the index; on a miss call
load(offset, chunk_size) once and cache a Loaded entry with a cleared
dirty flag, or an Empty entry when load returns nothing. -/
def Memstore.get (load : Nat → Nat → Option (List Nat)) (st : Memstore)
    (i : ChunkIndex) : Chunk × Memstore × List StoreEvent :=
  match findChunk st.chunks i with
  | some c => (c, st, [])
  | none =>
    match load i.offset i.chunk_size with
    | some d =>
      (.loaded d false, ⟨st.chunks ++ [(i, .loaded d false)]⟩,
        [.loadEv i.offset i.chunk_size])
    | none =>
      (.empty, ⟨st.chunks ++ [(i, .empty)]⟩,
        [.loadEv i.offset i.chunk_size])

/-- The entry traversal of Memstore::store_all: every Loaded entry whose
dirty flag is set is written back (one store(offset, data) event) and its
flag cleared; every other entry is untouched. -/
def storeAllEntries : List (ChunkIndex × Chunk) →
    List (ChunkIndex × Chunk) × List StoreEvent
  | [] => ([], [])
  | (i, c) :: rest =>
    match c with
    | .loaded d true =>
      ((i, .loaded d false) :: (storeAllEntries rest).1,
        .storeEv i.offset d :: (storeAllEntries rest).2)
    | _ => ((i, c) :: (storeAllEntries rest).1, (storeAllEntries rest).2)

def Memstore.store_all (st : Memstore) : Memstore × List StoreEvent :=
  (⟨(storeAllEntries st.chunks).1⟩, (storeAllEntries st.chunks).2)

/-- Entries whose dirty flag is clear keep their data; the flag becomes
false in all Loaded entries. -/
def cleanChunk : Chunk → Chunk
  | .loaded d _ => .loaded d false
  | .empty => .empty

def mockLoad : Nat → Nat → Option (List Nat) := fun o _ =>
  if o = 0 then some [1, 2, 3, 4] else none

/-! ## Overlapping-window search iterator (src/chunked_search.rs) -/

/-- Modelled from the spec: the ByteIterator of the virtual buffer (not
among the sources here) is a restartable forward byte cursor — each call
to next yields the next byte of the underlying byte sequence or
end-of-sequence.  It is a position into that sequence, advanced by each
successful next. -/
structure ByteIterator where
  src : List Nat
  pos : Nat
deriving DecidableEq

def ByteIterator.next (it : ByteIterator) : Option Nat × ByteIterator :=
  match it.src[it.pos]? with
  | some b => (some b, ⟨it.src, it.pos + 1⟩)
  | none => (none, it)

/-- ChunkInfo: a window's byte buffer, its absolute start position, and
the offset where the valid (non-duplicate) zone starts. -/
structure ChunkInfo where
  buffer : List Nat
  absolute_pos : Nat
  valid_start : Nat
deriving DecidableEq

/-- OverlappingChunks state; the source field named end is endPos here
(end is reserved). -/
structure OverlappingChunks where
  iter : ByteIterator
  buffer : List Nat
  buffer_start_pos : Nat
  current_read_pos : Nat
  endPos : Nat
  chunk_size : Nat
  overlap : Nat
  first_chunk : Bool
deriving DecidableEq

def OverlappingChunks.new (iter : ByteIterator)
    (start endPos chunk_size overlap : Nat) : OverlappingChunks :=
  ⟨iter, [], start, start, endPos, chunk_size, overlap, true⟩

/-- The read loop of fill_next_chunk: push bytes from the cursor while the
buffer is below the target length and the read position is before the end,
stopping when the cursor is exhausted.  The Nat argument bounds the
iteration count; fillTo passes target - buffer.len, which never runs
out. -/
def fillToFuel : Nat → OverlappingChunks → Nat → OverlappingChunks
  | 0, s, _ => s
  | fuel+1, s, target =>
    if s.buffer.length < target ∧ s.current_read_pos < s.endPos then
      match s.iter.next with
      | (some b, it) =>
        fillToFuel fuel
          { s with
            iter := it
            buffer := s.buffer ++ [b]
            current_read_pos := s.current_read_pos + 1 }
          target
      | (none, _) => s
    else s

def fillTo (s : OverlappingChunks) (target : Nat) : OverlappingChunks :=
  fillToFuel (target - s.buffer.length) s target

/-- The drain step of fill_next_chunk on a subsequent window: when the
buffer is longer than the overlap, drop everything except the trailing
overlap bytes and advance buffer_start_pos by the amount drained. -/
def drainTo (s : OverlappingChunks) : OverlappingChunks :=
  if s.overlap < s.buffer.length then
    { s with
      buffer := s.buffer.drop (s.buffer.length - s.overlap)
      buffer_start_pos := s.buffer_start_pos + (s.buffer.length - s.overlap) }
  else s

def fill_next_chunk (s : OverlappingChunks) : Bool × OverlappingChunks :=
  if s.first_chunk then
    (!(fillTo { s with first_chunk := false } s.chunk_size).buffer.isEmpty,
      fillTo { s with first_chunk := false } s.chunk_size)
  else if s.endPos ≤ s.current_read_pos then
    (false, s)
  else
    (decide ((drainTo s).buffer.length <
        (fillTo (drainTo s)
          ((drainTo s).overlap + (drainTo s).chunk_size)).buffer.length),
      fillTo (drainTo s) ((drainTo s).overlap + (drainTo s).chunk_size))

/-- The Iterator::next of OverlappingChunks: the first-window test is the
position equality the source evaluates before filling (it reads only the
pre-fill state), and valid_start is 0 for the first window and
min(overlap, buffer.len()) afterwards. -/
def nextChunk (s : OverlappingChunks) : Option ChunkInfo × OverlappingChunks :=
  if (fill_next_chunk s).1 then
    (some ⟨(fill_next_chunk s).2.buffer, (fill_next_chunk s).2.buffer_start_pos,
      if s.buffer_start_pos == s.current_read_pos then 0
      else min (fill_next_chunk s).2.overlap
        (fill_next_chunk s).2.buffer.length⟩,
      (fill_next_chunk s).2)
  else (none, (fill_next_chunk s).2)

/-- The whole (finite) window sequence drawn from the iterator, with a Nat
bound on the number of next calls. -/
def runChunks : Nat → OverlappingChunks → List ChunkInfo
  | 0, _ => []
  | fuel+1, s =>
    match nextChunk s with
    | (some c, s2) => c :: runChunks fuel s2
    | (none, _) => []

/-- How many bytes one fill loop adds: up to target - buffer.len, stopping
at the end position or the source end. -/
def fillAmount (s : OverlappingChunks) (target : Nat) : Nat :=
  min (target - s.buffer.length)
    (min (s.endPos - s.current_read_pos) (s.iter.src.length - s.iter.pos))

/-- State invariant between window yields (after at least one window): the
cursor sits at the read position, the buffer is exactly the source bytes
[buffer_start_pos, current_read_pos), the window parameters are the ones
the iterator was built with, and the read position never passes the end. -/
def StInv (src : List Nat) (start stop cs ov : Nat)
    (s : OverlappingChunks) : Prop :=
  s.iter.src = src ∧
  s.iter.pos = s.current_read_pos ∧
  s.endPos = stop ∧
  s.chunk_size = cs ∧
  s.overlap = ov ∧
  s.first_chunk = false ∧
  s.buffer = (src.drop s.buffer_start_pos).take
    (s.current_read_pos - s.buffer_start_pos) ∧
  s.buffer.length = s.current_read_pos - s.buffer_start_pos ∧
  start ≤ s.buffer_start_pos ∧
  s.buffer_start_pos < s.current_read_pos ∧
  s.current_read_pos ≤ stop

/-- Bytes retained by the drain of a subsequent window. -/
def keepOf (ov a r : Nat) : Nat := min ov (r - a)

/-- Bytes appended by the fill of a subsequent window. -/
def addOf (src : List Nat) (stop cs ov a r : Nat) : Nat :=
  min (ov + cs - keepOf ov a r) (min (stop - r) (src.length - r))

/-- The window sequence of the (amended) C5 description, as a function of
the window's absolute start a and the read position r: keep only the
trailing min(overlap, buffered) bytes (keepOf), advance the absolute start
by the amount dropped, fill the buffer back up to overlap + chunk_size
total bytes, stopping early at the end position or the source end (addOf;
when fewer than overlap bytes were retained this appends more than
chunk_size new bytes), end the iteration if nothing was appended, and
carry valid_start = min(overlap, buffer.len()). -/
def specWindows (src : List Nat) (stop cs ov : Nat) :
    Nat → Nat → Nat → List ChunkInfo
  | 0, _, _ => []
  | fuel+1, a, r =>
    if addOf src stop cs ov a r = 0 then []
    else
      ⟨(src.drop (r - keepOf ov a r)).take
          (keepOf ov a r + addOf src stop cs ov a r),
        r - keepOf ov a r,
        min ov (keepOf ov a r + addOf src stop cs ov a r)⟩ ::
      specWindows src stop cs ov fuel (r - keepOf ov a r)
        (r + addOf src stop cs ov a r)

/-- First window per the claim: up to chunk_size bytes from the cursor
(fewer if the end position or the source end comes sooner), absolute
position start, valid_start 0; the iteration ends if nothing was read. -/
def specSearch (src : List Nat) (start stop cs ov : Nat) :
    Nat → List ChunkInfo
  | 0 => []
  | fuel+1 =>
    if min cs (min (stop - start) (src.length - start)) = 0 then []
    else
      ⟨(src.drop start).take
          (min cs (min (stop - start) (src.length - start))), start, 0⟩ ::
      specWindows src stop cs ov fuel start
        (start + min cs (min (stop - start) (src.length - start)))

/-- The subsequent-window fill as claim C5 literally words it: at most
chunk_size additional bytes are appended after the drop. -/
def addOfOrig (src : List Nat) (stop cs r : Nat) : Nat :=
  min cs (min (stop - r) (src.length - r))

/-- The window sequence exactly as claim C5 words it (appending up to
chunk_size additional bytes on every subsequent window). -/
def specWindowsOrig (src : List Nat) (stop cs ov : Nat) :
    Nat → Nat → Nat → List ChunkInfo
  | 0, _, _ => []
  | fuel+1, a, r =>
    if addOfOrig src stop cs r = 0 then []
    else
      ⟨(src.drop (r - keepOf ov a r)).take
          (keepOf ov a r + addOfOrig src stop cs r),
        r - keepOf ov a r,
        min ov (keepOf ov a r + addOfOrig src stop cs r)⟩ ::
      specWindowsOrig src stop cs ov fuel (r - keepOf ov a r)
        (r + addOfOrig src stop cs r)

def specSearchOrig (src : List Nat) (start stop cs ov : Nat) :
    Nat → List ChunkInfo
  | 0 => []
  | fuel+1 =>
    if min cs (min (stop - start) (src.length - start)) = 0 then []
    else
      ⟨(src.drop start).take
          (min cs (min (stop - start) (src.length - start))), start, 0⟩ ::
      specWindowsOrig src stop cs ov fuel start
        (start + min cs (min (stop - start) (src.length - start)))

/-- The spec's 16-byte example source "0123456789abcdef" as bytes. -/
def SRC16 : List Nat :=
  [48, 49, 50, 51, 52, 53, 54, 55, 56, 57, 97, 98, 99, 100, 101, 102]

/-- The caller protocol of the spec: search the entire window buffer for
the pattern, accept a match only when its end offset is strictly greater
than valid_start, and report absolute_pos + local match start. -/
def acceptedOf (P : List Nat) (c : ChunkInfo) : List Nat :=
  ((List.range (c.buffer.length + 1 - P.length)).filter fun i =>
    decide ((c.buffer.drop i).take P.length = P) &&
      decide (c.valid_start < i + P.length)).map
    fun i => c.absolute_pos + i

/-- All positions reported over a window sequence, in order. -/
def reportsOf (P : List Nat) : List ChunkInfo → List Nat
  | [] => []
  | c :: ws => acceptedOf P c ++ reportsOf P ws

namespace ChunkTree

@[simp] theorem len_leaf (d : List Nat) : (ChunkTree.leaf d).len = d.length := rfl

@[simp] theorem len_internal (l m r : ChunkTree) (s : Nat) :
    (ChunkTree.internal l m r s).len = s := rfl

@[simp] theorem collect_leaf (d : List Nat) :
    (ChunkTree.leaf d).collect_bytes = d := rfl

@[simp] theorem collect_internal (l m r : ChunkTree) (s : Nat) :
    (ChunkTree.internal l m r s).collect_bytes =
      l.collect_bytes ++ m.collect_bytes ++ r.collect_bytes := rfl

@[simp] theorem wf_leaf (d : List Nat) : wf (ChunkTree.leaf d) := trivial

theorem wf_internal_iff (l m r : ChunkTree) (s : Nat) :
    wf (ChunkTree.internal l m r s) ↔
      wf l ∧ wf m ∧ wf r ∧ s = l.len + m.len + r.len := Iff.rfl

theorem fromSliceF_len (N : Nat) : ∀ fuel data, (fromSliceF N fuel data).len = data.length
  | 0, _ => rfl
  | fuel+1, data => by
    unfold fromSliceF
    split <;> rfl

@[simp] theorem fromSlice_len (N : Nat) (data : List Nat) :
    (fromSlice N data).len = data.length := fromSliceF_len N data.length data

theorem fromSliceF_collect (N : Nat) :
    ∀ fuel data, (fromSliceF N fuel data).collect_bytes = data
  | 0, _ => rfl
  | fuel+1, data => by
    unfold fromSliceF
    split
    · rfl
    · simp [fromSliceF_collect N fuel]

@[simp] theorem fromSlice_collect (N : Nat) (data : List Nat) :
    (fromSlice N data).collect_bytes = data := fromSliceF_collect N data.length data

theorem fromSliceF_wf (N : Nat) : ∀ fuel data, wf (fromSliceF N fuel data)
  | 0, _ => trivial
  | fuel+1, data => by
    unfold fromSliceF
    split
    · trivial
    · refine (wf_internal_iff ..).2
        ⟨fromSliceF_wf N fuel _, trivial, fromSliceF_wf N fuel _, ?_⟩
      simp [fromSliceF_len]
      omega

theorem fromSlice_wf (N : Nat) (data : List Nat) : wf (fromSlice N data) :=
  fromSliceF_wf N data.length data

theorem wf_collect_len : ∀ t : ChunkTree, wf t → t.collect_bytes.length = t.len
  | .leaf _, _ => rfl
  | .internal l m r s, h => by
    obtain ⟨hl, hm, hr, hs⟩ := (wf_internal_iff ..).1 h
    simp [wf_collect_len l hl, wf_collect_len m hm, wf_collect_len r hr, hs]
    omega

theorem insert_splice_left (cl cm cr d : List Nat) (p : Nat) (h : p ≤ cl.length) :
    (cl ++ cm ++ cr).take p ++ d ++ (cl ++ cm ++ cr).drop p =
      (cl.take p ++ d ++ cl.drop p) ++ cm ++ cr := by
  have e1 : p - cl.length = 0 := by omega
  simp [List.take_append_eq_append_take, List.drop_append_eq_append_drop,
    List.length_append, e1]

theorem insert_splice_mid (cl cm cr d : List Nat) (p : Nat)
    (h1 : cl.length ≤ p) (h2 : p ≤ cl.length + cm.length) :
    (cl ++ cm ++ cr).take p ++ d ++ (cl ++ cm ++ cr).drop p =
      cl ++ (cm.take (p - cl.length) ++ d ++ cm.drop (p - cl.length)) ++ cr := by
  have e1 : cl.take p = cl := List.take_of_length_le h1
  have e2 : cl.drop p = [] := List.drop_eq_nil_of_le h1
  have e3 : p - cl.length - cm.length = 0 := by omega
  simp [List.take_append_eq_append_take, List.drop_append_eq_append_drop,
    List.length_append, e1, e2, e3]

theorem insert_splice_right (cl cm cr d : List Nat) (p : Nat)
    (h1 : cl.length + cm.length ≤ p) :
    (cl ++ cm ++ cr).take p ++ d ++ (cl ++ cm ++ cr).drop p =
      cl ++ cm ++ (cr.take (p - cl.length - cm.length) ++ d ++
        cr.drop (p - cl.length - cm.length)) := by
  have e1 : cl.take p = cl := List.take_of_length_le (by omega)
  have e2 : cl.drop p = [] := List.drop_eq_nil_of_le (by omega)
  have e3 : cm.take (p - cl.length) = cm := List.take_of_length_le (by omega)
  have e4 : cm.drop (p - cl.length) = [] := List.drop_eq_nil_of_le (by omega)
  simp [List.take_append_eq_append_take, List.drop_append_eq_append_drop,
    List.length_append, e1, e2, e3, e4]

theorem splice_append3 (cl cm cr : List Nat) (rs re : Nat) (h : rs ≤ re) :
    (cl ++ cm ++ cr).take rs ++ (cl ++ cm ++ cr).drop re =
      (cl.take rs ++ cl.drop re) ++
        (cm.take (rs - cl.length) ++ cm.drop (re - cl.length)) ++
        (cr.take (rs - cl.length - cm.length) ++
          cr.drop (re - cl.length - cm.length)) := by
  rcases Nat.le_total rs cl.length with h1 | h1
  · have e1 : rs - cl.length = 0 := by omega
    have e2 : rs - cl.length - cm.length = 0 := by omega
    simp [List.take_append_eq_append_take, List.drop_append_eq_append_drop,
      List.length_append, e1, e2]
  · rcases Nat.le_total (rs - cl.length) cm.length with h2 | h2
    · have e1 : cl.drop re = [] := List.drop_eq_nil_of_le (by omega)
      have e2 : rs - cl.length - cm.length = 0 := by omega
      simp [List.take_append_eq_append_take, List.drop_append_eq_append_drop,
        List.length_append, e1, e2]
    · have e1 : cl.drop re = [] := List.drop_eq_nil_of_le (by omega)
      have e2 : cm.drop (re - cl.length) = [] := List.drop_eq_nil_of_le (by omega)
      simp [List.take_append_eq_append_take, List.drop_append_eq_append_drop,
        List.length_append, e1, e2]

/-- Master lemma for insert: on a well-formed tree and an in-bounds index,
insert succeeds, preserves the size invariant, and splices the data into
the collected byte sequence at the index. -/
theorem insert_spec (N : Nat) :
    ∀ t : ChunkTree, wf t → ∀ p d, p ≤ t.len →
      ∃ t', insert N t p d = some t' ∧ wf t' ∧
        t'.collect_bytes =
          t.collect_bytes.take p ++ d ++ t.collect_bytes.drop p
  | .leaf ld, _, p, d, hp => by
    simp only [len_leaf] at hp
    have heq : insert N (.leaf ld) p d =
        some (.internal (fromSlice N (ld.take p)) (fromSlice N d)
          (fromSlice N (ld.drop p)) (ld.length + d.length)) := by
      simp [insert, hp]
    refine ⟨_, heq, ?_, ?_⟩
    · refine (wf_internal_iff ..).2
        ⟨fromSlice_wf .., fromSlice_wf .., fromSlice_wf .., ?_⟩
      simp [fromSlice_len]
      omega
    · simp
  | .internal l m r s, hwf, p, d, hp => by
    obtain ⟨hl, hm, hr, hs⟩ := (wf_internal_iff ..).1 hwf
    have hcl := wf_collect_len l hl
    have hcm := wf_collect_len m hm
    have hcr := wf_collect_len r hr
    simp only [len_internal] at hp
    by_cases h1 : p ≤ l.len
    · obtain ⟨nl, hnl, hnlwf, hnlc⟩ := insert_spec N l hl p d h1
      have heq : insert N (.internal l m r s) p d =
          some (.internal nl m r (nl.len + m.len + r.len)) := by
        simp [insert, h1, hnl]
      refine ⟨_, heq, ?_, ?_⟩
      · exact (wf_internal_iff ..).2 ⟨hnlwf, hm, hr, rfl⟩
      · simp only [collect_internal, hnlc]
        rw [insert_splice_left _ _ _ _ _ (by omega)]
    · by_cases h2 : p ≤ l.len + m.len
      · obtain ⟨nm, hnm, hnmwf, hnmc⟩ := insert_spec N m hm (p - l.len) d (by omega)
        have heq : insert N (.internal l m r s) p d =
            some (.internal l nm r (l.len + nm.len + r.len)) := by
          simp [insert, h1, h2, hnm]
        refine ⟨_, heq, ?_, ?_⟩
        · exact (wf_internal_iff ..).2 ⟨hl, hnmwf, hr, rfl⟩
        · simp only [collect_internal, hnmc, hcl]
          rw [insert_splice_mid _ _ _ _ _ (by omega) (by omega), hcl]
      · have h3 : p ≤ l.len + m.len + r.len := by omega
        obtain ⟨nr, hnr, hnrwf, hnrc⟩ :=
          insert_spec N r hr (p - l.len - m.len) d (by omega)
        have heq : insert N (.internal l m r s) p d =
            some (.internal l m nr (l.len + m.len + nr.len)) := by
          simp [insert, h1, h2, h3, hnr]
        refine ⟨_, heq, ?_, ?_⟩
        · exact (wf_internal_iff ..).2 ⟨hl, hm, hnrwf, rfl⟩
        · simp only [collect_internal, hnrc, hcl, hcm]
          rw [insert_splice_right _ _ _ _ _ (by omega), hcl, hcm]

/-- insert signals out-of-bounds exactly when the index exceeds the length. -/
theorem insert_oob (N : Nat) :
    ∀ t : ChunkTree, wf t → ∀ p d, t.len < p → insert N t p d = none
  | .leaf ld, _, p, d, hp => by
    simp only [len_leaf] at hp
    simp [insert]
    omega
  | .internal l m r s, hwf, p, d, hp => by
    obtain ⟨hl, hm, hr, hs⟩ := (wf_internal_iff ..).1 hwf
    simp only [len_internal] at hp
    have h1 : ¬ p ≤ l.len := by omega
    have h2 : ¬ p ≤ l.len + m.len := by omega
    have h3 : ¬ p ≤ l.len + m.len + r.len := by omega
    simp [insert, h1, h2, h3]

/-- Master lemma for remove: on a well-formed tree, with start ≤ end, end
within bounds and start strictly inside (or the tree empty), remove
succeeds, preserves the size invariant (so the source's two assertions
hold), and splices the range out of the collected byte sequence. -/
theorem remove_spec (N : Nat) :
    ∀ t : ChunkTree, wf t → ∀ rs re, rs ≤ re → re ≤ t.len →
      (rs < t.len ∨ t.len = 0) →
      ∃ t', remove N t rs re = some t' ∧ wf t' ∧
        t'.collect_bytes =
          t.collect_bytes.take rs ++ t.collect_bytes.drop re
  | .leaf ld, _, rs, re, hsle, hle, hlt => by
    simp only [len_leaf] at hle hlt
    by_cases h0 : ld.length = 0
    · have hld : ld = [] := List.eq_nil_of_length_eq_zero h0
      refine ⟨.leaf [], ?_, trivial, ?_⟩
      · simp [remove, h0]
        omega
      · simp [hld]
    · have hrs : rs < ld.length := by omega
      have heq : remove N (.leaf ld) rs re =
          some (.internal (fromSlice N (ld.take rs)) (fromSlice N [])
            (fromSlice N (ld.drop re)) (ld.length - (re - rs))) := by
        have hg1 : ¬ (ld.length = 0 ∧ re ≤ rs) := by omega
        have hg2 : ¬ (ld.length ≤ rs ∨ ld.length < re) := by omega
        simp only [remove]
        rw [if_neg hg1, if_neg hg2]
      refine ⟨_, heq, ?_, ?_⟩
      · refine (wf_internal_iff ..).2
          ⟨fromSlice_wf .., trivial, fromSlice_wf .., ?_⟩
        simp [fromSlice_len]
        omega
      · simp
  | .internal l m r s, hwf, rs, re, hsle, hle, hlt => by
    obtain ⟨hl, hm, hr, hs⟩ := (wf_internal_iff ..).1 hwf
    have hcl := wf_collect_len l hl
    have hcm := wf_collect_len m hm
    have hcr := wf_collect_len r hr
    simp only [len_internal] at hle hlt
    by_cases h0 : s = 0
    · refine ⟨.leaf [], ?_, trivial, ?_⟩
      · simp [remove, h0]
        omega
      · have hz : (ChunkTree.internal l m r s).collect_bytes.length = 0 := by
          rw [wf_collect_len _ hwf]
          simp [h0]
        rw [List.eq_nil_of_length_eq_zero hz]
        simp
    · have hrs : rs < s := by omega
      have HL : ∃ nl, (if rs < l.len then
            remove N l (min rs l.len) (min re l.len) else some l) = some nl ∧
          wf nl ∧ nl.collect_bytes =
            l.collect_bytes.take rs ++ l.collect_bytes.drop re := by
        by_cases hcond : rs < l.len
        · obtain ⟨nl, e1, e2, e3⟩ := remove_spec N l hl (min rs l.len)
            (min re l.len) (by omega) (by omega) (by omega)
          refine ⟨nl, by simp [hcond, e1], e2, ?_⟩
          rw [e3]
          have hmin : min rs l.len = rs := by omega
          rw [hmin]
          rcases Nat.le_total re l.len with h | h
          · rw [Nat.min_eq_left h]
          · rw [Nat.min_eq_right h, List.drop_eq_nil_of_le (by omega),
              List.drop_eq_nil_of_le (by omega)]
        · refine ⟨l, by simp [hcond], hl, ?_⟩
          rw [List.take_of_length_le (by omega),
            List.drop_eq_nil_of_le (by omega), List.append_nil]
      have HM : ∃ nm, (if rs - l.len < m.len then
            remove N m (min (rs - l.len) m.len) (min (re - l.len) m.len)
          else some m) = some nm ∧
          wf nm ∧ nm.collect_bytes =
            m.collect_bytes.take (rs - l.len) ++
              m.collect_bytes.drop (re - l.len) := by
        by_cases hcond : rs - l.len < m.len
        · obtain ⟨nm, e1, e2, e3⟩ := remove_spec N m hm (min (rs - l.len) m.len)
            (min (re - l.len) m.len) (by omega) (by omega) (by omega)
          refine ⟨nm, by simp [hcond, e1], e2, ?_⟩
          rw [e3]
          have hmin : min (rs - l.len) m.len = rs - l.len := by omega
          rw [hmin]
          rcases Nat.le_total (re - l.len) m.len with h | h
          · rw [Nat.min_eq_left h]
          · rw [Nat.min_eq_right h, List.drop_eq_nil_of_le (by omega),
              List.drop_eq_nil_of_le (by omega)]
        · refine ⟨m, by simp [hcond], hm, ?_⟩
          rw [List.take_of_length_le (by omega),
            List.drop_eq_nil_of_le (by omega), List.append_nil]
      have HR : ∃ nr, (if rs - (l.len + m.len) < r.len then
            remove N r (min (rs - (l.len + m.len)) r.len)
              (min (re - (l.len + m.len)) r.len)
          else some r) = some nr ∧
          wf nr ∧ nr.collect_bytes =
            r.collect_bytes.take (rs - l.len - m.len) ++
              r.collect_bytes.drop (re - l.len - m.len) := by
        by_cases hcond : rs - (l.len + m.len) < r.len
        · obtain ⟨nr, e1, e2, e3⟩ := remove_spec N r hr
            (min (rs - (l.len + m.len)) r.len)
            (min (re - (l.len + m.len)) r.len) (by omega) (by omega) (by omega)
          refine ⟨nr, by simp [hcond, e1], e2, ?_⟩
          rw [e3]
          have hmin : min (rs - (l.len + m.len)) r.len = rs - l.len - m.len := by
            omega
          rw [hmin]
          rcases Nat.le_total (re - (l.len + m.len)) r.len with h | h
          · have e : re - (l.len + m.len) = re - l.len - m.len := by omega
            rw [Nat.min_eq_left h, e]
          · rw [Nat.min_eq_right h, List.drop_eq_nil_of_le (by omega),
              List.drop_eq_nil_of_le (by omega)]
        · refine ⟨r, by simp [hcond], hr, ?_⟩
          rw [List.take_of_length_le (by omega),
            List.drop_eq_nil_of_le (by omega), List.append_nil]
      obtain ⟨nl, hnl1, hnl2, hnl3⟩ := HL
      obtain ⟨nm, hnm1, hnm2, hnm3⟩ := HM
      obtain ⟨nr, hnr1, hnr2, hnr3⟩ := HR
      have lnl : nl.len = min rs l.len + (l.len - re) := by
        rw [← wf_collect_len nl hnl2, hnl3]
        simp [hcl]
      have lnm : nm.len = min (rs - l.len) m.len + (m.len - (re - l.len)) := by
        rw [← wf_collect_len nm hnm2, hnm3]
        simp [hcm]
      have lnr : nr.len =
          min (rs - l.len - m.len) r.len + (r.len - (re - l.len - m.len)) := by
        rw [← wf_collect_len nr hnr2, hnr3]
        simp [hcr]
      have hassert : s ≥ nl.len + nm.len + nr.len ∧
          s - (min re s - min rs s) = nl.len + nm.len + nr.len := by
        omega
      have heq : remove N (.internal l m r s) rs re =
          some (.internal nl nm nr (nl.len + nm.len + nr.len)) := by
        have hg1 : ¬ (s = 0 ∧ re ≤ rs) := by omega
        have hg2 : ¬ (s ≤ rs ∨ s < re) := by omega
        have hg3 : ¬ s < rs := by omega
        simp only [remove, hg1, hg2, hg3, if_false, hnl1, hnm1, hnr1,
          Option.bind_some, Option.some_bind]
        rw [if_pos hassert]
      refine ⟨_, heq, ?_, ?_⟩
      · exact (wf_internal_iff ..).2 ⟨hnl2, hnm2, hnr2, rfl⟩
      · simp only [collect_internal, hnl3, hnm3, hnr3]
        rw [splice_append3 _ _ _ _ _ hsle, hcl, hcm]

/-- remove signals an invalid range exactly when start is at or beyond the
length or end exceeds it, apart from the empty-range-on-empty-tree no-op. -/
theorem remove_none_iff (N : Nat) (t : ChunkTree) (hwf : wf t) (rs re : Nat)
    (hsle : rs ≤ re) :
    remove N t rs re = none ↔
      ((t.len ≤ rs ∨ t.len < re) ∧ ¬(t.len = 0 ∧ rs = re)) := by
  constructor
  · intro hnone
    by_cases hdeg : t.len = 0 ∧ rs = re
    · exfalso
      have hsome : remove N t rs re = some (.leaf []) := by
        cases t with
        | leaf d =>
          simp only [len_leaf] at hdeg
          simp only [remove]
          rw [if_pos (by omega)]
        | internal l m r s =>
          simp only [len_internal] at hdeg
          simp only [remove]
          rw [if_pos (by omega)]
      rw [hsome] at hnone
      cases hnone
    · by_cases hin : rs < t.len ∧ re ≤ t.len
      · obtain ⟨t', ht', _, _⟩ :=
          remove_spec N t hwf rs re hsle hin.2 (Or.inl hin.1)
        rw [ht'] at hnone
        cases hnone
      · exact ⟨by omega, hdeg⟩
  · rintro ⟨hA, hB⟩
    cases t with
    | leaf d =>
      simp only [len_leaf] at hA hB
      simp only [remove]
      rw [if_neg (by omega), if_pos (by omega)]
    | internal l m r s =>
      simp only [len_internal] at hA hB
      simp only [remove]
      rw [if_neg (by omega), if_pos (by omega)]

/-- insert preserves the size invariant. -/
theorem insert_wf (N : Nat) (t t' : ChunkTree) (i : Nat) (d : List Nat)
    (hwf : wf t) (h : insert N t i d = some t') : wf t' := by
  by_cases hle : i ≤ t.len
  · obtain ⟨t'', h2, h3, _⟩ := insert_spec N t hwf i d hle
    rw [h] at h2
    cases h2
    exact h3
  · rw [insert_oob N t hwf i d (by omega)] at h
    cases h

/-- remove preserves the size invariant (for proper ranges start ≤ end). -/
theorem remove_wf (N : Nat) (t t' : ChunkTree) (rs re : Nat)
    (hwf : wf t) (hsle : rs ≤ re) (h : remove N t rs re = some t') : wf t' := by
  by_cases hdeg : t.len = 0 ∧ rs = re
  · have hsome : remove N t rs re = some (.leaf []) := by
      cases t with
      | leaf d =>
        simp only [len_leaf] at hdeg
        simp only [remove]
        rw [if_pos (by omega)]
      | internal l m r s =>
        simp only [len_internal] at hdeg
        simp only [remove]
        rw [if_pos (by omega)]
    rw [hsome] at h
    cases h
    trivial
  · by_cases hin : rs < t.len ∧ re ≤ t.len
    · obtain ⟨t'', h2, h3, _⟩ :=
        remove_spec N t hwf rs re hsle hin.2 (Or.inl hin.1)
      rw [h] at h2
      cases h2
      exact h3
    · have : remove N t rs re = none :=
        (remove_none_iff N t hwf rs re hsle).2 ⟨by omega, hdeg⟩
      rw [this] at h
      cases h

theorem applyOps_wf (N : Nat) :
    ∀ (ops : List EditOp) (t0 t : ChunkTree), wf t0 →
      (∀ o ∈ ops, opOk o) → applyOps N t0 ops = some t → wf t
  | [], t0, t, hwf, _, h => by
    cases h
    exact hwf
  | op :: ops, t0, t, hwf, hok, h => by
    simp only [applyOps, Option.bind_eq_some] at h
    obtain ⟨t1, h1, h2⟩ := h
    have hwf1 : wf t1 := by
      cases op with
      | ins i d => exact insert_wf N t0 t1 i d hwf h1
      | del rs re =>
        have hok0 : opOk (.del rs re) := hok _ (by simp)
        exact remove_wf N t0 t1 rs re hwf hok0 h1
    exact applyOps_wf N ops t1 t hwf1 (fun o ho => hok o (by simp [ho])) h2

end ChunkTree

theorem storeOk_iff (st : HStore) :
    storeOk st ↔ ∀ i nd, st[i]? = some nd → childrenBelowB i nd = true := by
  constructor
  · intro h i nd hnd
    have hi : i < st.length := by
      by_contra hge
      rw [List.getElem?_eq_none (by omega)] at hnd
      cases hnd
    have := h i hi
    rw [List.getD_eq_getElem?_getD, hnd] at this
    exact this
  · intro h i hi
    rw [List.getD_eq_getElem?_getD, List.getElem?_eq_getElem hi]
    exact h i _ (List.getElem?_eq_getElem hi)

theorem storeOk_push (st : HStore) (nd : HNode) (hok : storeOk st)
    (hnd : childrenBelowB st.length nd = true) : storeOk (st ++ [nd]) := by
  rw [storeOk_iff]
  intro i nd' hnd'
  by_cases hi : i < st.length
  · rw [List.getElem?_append_left hi] at hnd'
    exact (storeOk_iff st).1 hok i nd' hnd'
  · have hlen : i < st.length + 1 := by
      by_contra hge
      rw [List.getElem?_eq_none (by simp; omega)] at hnd'
      cases hnd'
    have hieq : i = st.length := by omega
    subst hieq
    have : (st ++ [nd])[st.length]? = some nd := by
      rw [List.getElem?_append_right (by omega)]
      simp
    rw [this] at hnd'
    cases hnd'
    exact hnd

theorem storeOk_children {st : HStore} (hok : storeOk st) {i l m r s : Nat}
    (h : st[i]? = some (.hinternal l m r s)) : l < i ∧ m < i ∧ r < i := by
  have := (storeOk_iff st).1 hok i _ h
  simp [childrenBelowB] at this
  exact ⟨this.1.1, this.1.2, this.2⟩

theorem collectH_congr_fuel {st : HStore} (hok : storeOk st) :
    ∀ i fuel fuel', i < fuel → i < fuel' →
      collectH st fuel i = collectH st fuel' i := by
  intro i
  induction i using Nat.strong_induction_on with
  | _ i ih =>
    intro fuel fuel' h1 h2
    match fuel, fuel' with
    | f1+1, f2+1 =>
      simp only [collectH]
      match hnode : st[i]? with
      | none => rfl
      | some (.hleaf d) => rfl
      | some (.hinternal l m r s) =>
        obtain ⟨hl, hm, hr⟩ := storeOk_children hok hnode
        dsimp only
        rw [ih l hl f1 f2 (by omega) (by omega),
          ih m hm f1 f2 (by omega) (by omega),
          ih r hr f1 f2 (by omega) (by omega)]

theorem collectH_append {st : HStore} (ext : HStore) (hok : storeOk st) :
    ∀ fuel i, i < st.length →
      collectH (st ++ ext) fuel i = collectH st fuel i := by
  intro fuel
  induction fuel with
  | zero => intro i hi; rfl
  | succ f ih =>
    intro i hi
    simp only [collectH]
    rw [List.getElem?_append_left hi]
    match hnode : st[i]? with
    | none => rfl
    | some (.hleaf d) => rfl
    | some (.hinternal l m r s) =>
      obtain ⟨hl, hm, hr⟩ := storeOk_children hok hnode
      dsimp only
      rw [ih l (by omega), ih m (by omega), ih r (by omega)]

/-- Frame property of an append-only store: appending nodes never changes
what an existing root collects. -/
theorem collectAt_frame {st : HStore} (ext : HStore) (hok : storeOk st)
    {j : Nat} (hj : j < st.length) :
    collectAt (st ++ ext) j = collectAt st j := by
  unfold collectAt
  rw [collectH_append ext hok _ j hj]
  exact collectH_congr_fuel hok j _ _ (by simp; omega) (by omega)

theorem fromSliceHF_spec (N : Nat) :
    ∀ fuel st data, storeOk st →
      (∃ ext, (fromSliceHF N fuel st data).1 = st ++ ext) ∧
      storeOk (fromSliceHF N fuel st data).1 ∧
      (fromSliceHF N fuel st data).2 < (fromSliceHF N fuel st data).1.length
  | 0, st, data, hok => by
    refine ⟨⟨[.hleaf data], rfl⟩, storeOk_push st _ hok rfl, by simp [fromSliceHF]⟩
  | fuel+1, st, data, hok => by
    simp only [fromSliceHF]
    split
    · exact ⟨⟨[.hleaf data], rfl⟩, storeOk_push st _ hok rfl, by simp⟩
    · obtain ⟨⟨ext1, he1⟩, hok1, hr1⟩ :=
        fromSliceHF_spec N fuel st (data.take (data.length / 2)) hok
      obtain ⟨⟨ext2, he2⟩, hok2, hr2⟩ :=
        fromSliceHF_spec N fuel (fromSliceHF N fuel st (data.take (data.length / 2))).1
          (data.drop (data.length / 2)) hok1
      have hlen12 : (fromSliceHF N fuel st (data.take (data.length / 2))).1.length ≤
          (fromSliceHF N fuel
            (fromSliceHF N fuel st (data.take (data.length / 2))).1
            (data.drop (data.length / 2))).1.length := by
        rw [he2]
        simp
      refine ⟨?_, ?_, ?_⟩
      · rw [he2, he1]
        simp only [List.append_assoc]
        exact ⟨_, rfl⟩
      · have hok3 := storeOk_push _ (.hleaf []) hok2 rfl
        refine storeOk_push _ _ hok3 ?_
        simp [childrenBelowB]
        omega
      · simp

theorem fromSliceH_spec (N : Nat) (st : HStore) (data : List Nat)
    (hok : storeOk st) :
    (∃ ext, (fromSliceH N st data).1 = st ++ ext) ∧
    storeOk (fromSliceH N st data).1 ∧
    (fromSliceH N st data).2 < (fromSliceH N st data).1.length :=
  fromSliceHF_spec N data.length st data hok

/-- A successful insertH only extends the store, keeps it acyclic, and
returns a root inside it. -/
theorem insertH_spec (N : Nat) :
    ∀ fuel st i index data st' r', storeOk st →
      insertH N fuel st i index data = some (st', r') →
      (∃ ext, st' = st ++ ext) ∧ storeOk st' ∧ r' < st'.length := by
  intro fuel
  induction fuel with
  | zero => intro st i index data st' r' hok h; cases h
  | succ fuel ih =>
    intro st i index data st' r' hok h
    rw [insertH] at h
    match hnode : st[i]? with
    | none => rw [hnode] at h; cases h
    | some (.hleaf d) =>
      rw [hnode] at h
      dsimp only at h
      by_cases hidx : index ≤ d.length
      · rw [if_pos hidx] at h
        obtain ⟨⟨e1, he1⟩, hok1, hr1⟩ := fromSliceH_spec N st (d.take index) hok
        obtain ⟨⟨e2, he2⟩, hok2, hr2⟩ :=
          fromSliceH_spec N (fromSliceH N st (d.take index)).1 data hok1
        obtain ⟨⟨e3, he3⟩, hok3, hr3⟩ :=
          fromSliceH_spec N
            (fromSliceH N (fromSliceH N st (d.take index)).1 data).1
            (d.drop index) hok2
        cases h
        have hl1 : (fromSliceH N st (d.take index)).1.length ≤
            (fromSliceH N (fromSliceH N st (d.take index)).1 data).1.length := by
          rw [he2]; simp
        have hl2 : (fromSliceH N (fromSliceH N st (d.take index)).1 data).1.length ≤
            (fromSliceH N
              (fromSliceH N (fromSliceH N st (d.take index)).1 data).1
              (d.drop index)).1.length := by
          rw [he3]; simp
        refine ⟨?_, ?_, by simp⟩
        · rw [he3, he2, he1]
          simp only [List.append_assoc]
          exact ⟨_, rfl⟩
        · refine storeOk_push _ _ hok3 ?_
          simp [childrenBelowB]
          omega
      · rw [if_neg hidx] at h; cases h
    | some (.hinternal l m r s) =>
      rw [hnode] at h
      dsimp only at h
      have hchild := storeOk_children hok hnode
      have hilen : i < st.length := by
        by_contra hge
        rw [List.getElem?_eq_none (by omega)] at hnode
        cases hnode
      split at h
      · match hrec : insertH N fuel st l index data with
        | none => rw [hrec] at h; cases h
        | some p =>
          obtain ⟨⟨ext, hext⟩, hokp, hrp⟩ := ih st l index data p.1 p.2 hok hrec
          rw [hrec] at h
          cases h
          refine ⟨?_, ?_, by simp⟩
          · rw [hext]
            simp only [List.append_assoc]
            exact ⟨_, rfl⟩
          · refine storeOk_push _ _ hokp ?_
            have hm : m < p.1.length := by rw [hext]; simp; omega
            have hr : r < p.1.length := by rw [hext]; simp; omega
            simp [childrenBelowB]
            omega
      · split at h
        · match hrec : insertH N fuel st m (index - lenH st l) data with
          | none => rw [hrec] at h; cases h
          | some p =>
            obtain ⟨⟨ext, hext⟩, hokp, hrp⟩ :=
              ih st m (index - lenH st l) data p.1 p.2 hok hrec
            rw [hrec] at h
            cases h
            refine ⟨?_, ?_, by simp⟩
            · rw [hext]
              simp only [List.append_assoc]
              exact ⟨_, rfl⟩
            · refine storeOk_push _ _ hokp ?_
              have hl : l < p.1.length := by rw [hext]; simp; omega
              have hr : r < p.1.length := by rw [hext]; simp; omega
              simp [childrenBelowB]
              omega
        · split at h
          · match hrec : insertH N fuel st r (index - lenH st l - lenH st m) data with
            | none => rw [hrec] at h; cases h
            | some p =>
              obtain ⟨⟨ext, hext⟩, hokp, hrp⟩ :=
                ih st r (index - lenH st l - lenH st m) data p.1 p.2 hok hrec
              rw [hrec] at h
              cases h
              refine ⟨?_, ?_, by simp⟩
              · rw [hext]
                simp only [List.append_assoc]
                exact ⟨_, rfl⟩
              · refine storeOk_push _ _ hokp ?_
                have hl : l < p.1.length := by rw [hext]; simp; omega
                have hm : m < p.1.length := by rw [hext]; simp; omega
                simp [childrenBelowB]
                omega
          · cases h

/-- A successful removeH only extends the store, keeps it acyclic, and
returns a root inside it. -/
theorem removeH_spec (N : Nat) :
    ∀ fuel st i rs re st' r', storeOk st →
      removeH N fuel st i rs re = some (st', r') →
      (∃ ext, st' = st ++ ext) ∧ storeOk st' ∧ r' < st'.length := by
  intro fuel
  induction fuel with
  | zero => intro st i rs re st' r' hok h; cases h
  | succ fuel ih =>
    intro st i rs re st' r' hok h
    rw [removeH] at h
    by_cases hg1 : lenH st i = 0 ∧ re ≤ rs
    · rw [if_pos hg1] at h
      cases h
      exact ⟨⟨_, rfl⟩, storeOk_push _ _ hok rfl, by simp⟩
    · rw [if_neg hg1] at h
      by_cases hg2 : lenH st i ≤ rs ∨ lenH st i < re
      · rw [if_pos hg2] at h; cases h
      · rw [if_neg hg2] at h
        match hnode : st[i]? with
        | none => rw [hnode] at h; cases h
        | some (.hleaf d) =>
          rw [hnode] at h
          dsimp only at h
          obtain ⟨⟨e1, he1⟩, hok1, hr1⟩ := fromSliceH_spec N st (d.take rs) hok
          obtain ⟨⟨e2, he2⟩, hok2, hr2⟩ :=
            fromSliceH_spec N (fromSliceH N st (d.take rs)).1 [] hok1
          obtain ⟨⟨e3, he3⟩, hok3, hr3⟩ :=
            fromSliceH_spec N (fromSliceH N (fromSliceH N st (d.take rs)).1 []).1
              (d.drop re) hok2
          cases h
          have hl1 : (fromSliceH N st (d.take rs)).1.length ≤
              (fromSliceH N (fromSliceH N st (d.take rs)).1 []).1.length := by
            rw [he2]; simp
          have hl2 : (fromSliceH N (fromSliceH N st (d.take rs)).1 []).1.length ≤
              (fromSliceH N (fromSliceH N (fromSliceH N st (d.take rs)).1 []).1
                (d.drop re)).1.length := by
            rw [he3]; simp
          refine ⟨?_, ?_, by simp⟩
          · rw [he3, he2, he1]
            simp only [List.append_assoc]
            exact ⟨_, rfl⟩
          · refine storeOk_push _ _ hok3 ?_
            simp [childrenBelowB]
            omega
        | some (.hinternal l m r s) =>
          rw [hnode] at h
          dsimp only at h
          have hchild := storeOk_children hok hnode
          have hilen : i < st.length := by
            by_contra hge
            rw [List.getElem?_eq_none (by omega)] at hnode
            cases hnode
          split at h
          · cases h
            refine ⟨⟨_, rfl⟩, storeOk_push _ _ hok ?_, by simp⟩
            simp [childrenBelowB]
            omega
          · rcases Option.bind_eq_some.1 h with ⟨pl, hpl, h⟩
            have hPL : (∃ ext, pl.1 = st ++ ext) ∧ storeOk pl.1 ∧
                pl.2 < pl.1.length := by
              split at hpl
              · exact ih st l _ _ pl.1 pl.2 hok hpl
              · cases hpl
                exact ⟨⟨[], by simp⟩, hok, by simp; omega⟩
            obtain ⟨⟨extl, hextl⟩, hokl, hrl⟩ := hPL
            have hstl : st.length ≤ pl.1.length := by rw [hextl]; simp
            rcases Option.bind_eq_some.1 h with ⟨pm, hpm, h⟩
            have hPM : (∃ ext, pm.1 = pl.1 ++ ext) ∧ storeOk pm.1 ∧
                pm.2 < pm.1.length := by
              split at hpm
              · exact ih pl.1 m _ _ pm.1 pm.2 hokl hpm
              · cases hpm
                exact ⟨⟨[], by simp⟩, hokl, by simp; omega⟩
            obtain ⟨⟨extm, hextm⟩, hokm, hrm⟩ := hPM
            have hstm : pl.1.length ≤ pm.1.length := by rw [hextm]; simp
            rcases Option.bind_eq_some.1 h with ⟨pr, hpr, h⟩
            have hPR : (∃ ext, pr.1 = pm.1 ++ ext) ∧ storeOk pr.1 ∧
                pr.2 < pr.1.length := by
              split at hpr
              · exact ih pm.1 r _ _ pr.1 pr.2 hokm hpr
              · cases hpr
                exact ⟨⟨[], by simp⟩, hokm, by simp; omega⟩
            obtain ⟨⟨extr, hextr⟩, hokr, hrr⟩ := hPR
            have hstr : pm.1.length ≤ pr.1.length := by rw [hextr]; simp
            split at h
            · cases h
              refine ⟨?_, ?_, by simp⟩
              · rw [hextr, hextm, hextl]
                simp only [List.append_assoc]
                exact ⟨_, rfl⟩
              · refine storeOk_push _ _ hokr ?_
                simp [childrenBelowB]
                omega
            · cases h

open ChunkTree in
/-- C2: for every byte sequence S, position p ≤ |S| and data D, inserting D
at p in a tree whose collected bytes are S (any tree satisfying the
maintained size invariant, in particular any from_slice tree) succeeds and
collects to S[..p] ++ D ++ S[p..]; a non-empty D changes the content and an
empty D leaves it unchanged. -/
theorem c2_insert_collect (N : Nat) (t : ChunkTree) (S D : List Nat) (p : Nat)
    (hwf : wf t) (hS : t.collect_bytes = S) (hp : p ≤ S.length) :
    ∃ t', insert N t p D = some t' ∧
      t'.collect_bytes = S.take p ++ D ++ S.drop p ∧
      (D ≠ [] → t'.collect_bytes ≠ S) ∧ (D = [] → t'.collect_bytes = S) := by
  have hlen : p ≤ t.len := by
    rw [← wf_collect_len t hwf, hS]
    exact hp
  obtain ⟨t', h1, h2, h3⟩ := insert_spec N t hwf p D hlen
  subst hS
  refine ⟨t', h1, h3, ?_, ?_⟩
  · intro hD hEq
    have hlenD : 0 < D.length := List.length_pos.2 hD
    have := congrArg List.length hEq
    rw [h3] at this
    simp [List.length_take, List.length_drop] at this
    omega
  · intro hD
    subst hD
    rw [h3]
    simp

open ChunkTree in
theorem c2_witness :
    ∃ t', insert 2 (fromSlice 2 [0, 1, 2]) 1 [9] = some t' ∧
      t'.collect_bytes =
        ([0, 1, 2] : List Nat).take 1 ++ [9] ++ ([0, 1, 2] : List Nat).drop 1 ∧
      ([9] ≠ ([] : List Nat) → t'.collect_bytes ≠ [0, 1, 2]) ∧
      ([9] = ([] : List Nat) → t'.collect_bytes = [0, 1, 2]) :=
  c2_insert_collect 2 (fromSlice 2 [0, 1, 2]) [0, 1, 2] [9] 1
    (by decide) (by decide) (by decide)

open ChunkTree in
/-- C3 counterexample: the claim states that remove succeeds for every
range with start ≤ end and both bounds ≤ |S|; but on S = [7] the range
1..1 satisfies those bounds and remove signals an invalid range (the
source aborts when range.start ≥ self.len()). -/
theorem c3_counterexample :
    remove 2 (fromSlice 2 [7]) 1 1 = none ∧
      (fromSlice 2 [7]).collect_bytes = [7] ∧
      (1 : Nat) ≤ 1 ∧ 1 ≤ ([7] : List Nat).length := by
  decide

open ChunkTree in
/-- C3 (amended): for every byte sequence S and range [rs, re) with
rs ≤ re and re ≤ |S|, and in addition rs < |S| or S empty (the code rejects
rs at or beyond the length except on an empty tree), removing the range
from a tree whose collected bytes are S (any tree satisfying the
maintained size invariant) succeeds and collects to S with [rs, re)
spliced out; a non-empty range changes the content and an empty range
leaves it identical. -/
theorem c3_remove_collect (N : Nat) (t : ChunkTree) (S : List Nat) (rs re : Nat)
    (hwf : wf t) (hS : t.collect_bytes = S) (h1 : rs ≤ re) (h2 : re ≤ S.length)
    (h3 : rs < S.length ∨ S.length = 0) :
    ∃ t', remove N t rs re = some t' ∧
      t'.collect_bytes = S.take rs ++ S.drop re ∧
      (rs < re → t'.collect_bytes ≠ S) ∧ (rs = re → t'.collect_bytes = S) := by
  have hlen : t.len = S.length := by
    rw [← wf_collect_len t hwf, hS]
  obtain ⟨t', e1, e2, e3⟩ := remove_spec N t hwf rs re h1 (by omega) (by omega)
  subst hS
  refine ⟨t', e1, e3, ?_, ?_⟩
  · intro hne hEq
    have := congrArg List.length hEq
    rw [e3] at this
    simp [List.length_take, List.length_drop] at this
    omega
  · intro hEq
    subst hEq
    rw [e3]
    simp

open ChunkTree in
theorem c3_witness :
    ∃ t', remove 2 (fromSlice 2 [0, 1, 2]) 1 2 = some t' ∧
      t'.collect_bytes = ([0, 1, 2] : List Nat).take 1 ++ ([0, 1, 2] : List Nat).drop 2 ∧
      ((1 : Nat) < 2 → t'.collect_bytes ≠ [0, 1, 2]) ∧
      ((1 : Nat) = 2 → t'.collect_bytes = [0, 1, 2]) :=
  c3_remove_collect 2 (fromSlice 2 [0, 1, 2]) [0, 1, 2] 1 2
    (by decide) (by decide) (by decide) (by decide) (by decide)

open ChunkTree in
/-- C4: on a well-formed tree, insert signals out-of-bounds exactly when
the index exceeds len(), and remove (on a proper range rs ≤ re) signals an
invalid range exactly when rs is at or beyond len() or re exceeds len(),
except that removing an empty range from an empty tree succeeds; all other
in-bounds calls succeed. -/
theorem c4_failure_conditions (N : Nat) (t : ChunkTree) (i rs re : Nat)
    (D : List Nat) (hwf : wf t) (hsle : rs ≤ re) :
    (insert N t i D = none ↔ t.len < i) ∧
    (remove N t rs re = none ↔
      ((t.len ≤ rs ∨ t.len < re) ∧ ¬(t.len = 0 ∧ rs = re))) := by
  refine ⟨⟨?_, ?_⟩, remove_none_iff N t hwf rs re hsle⟩
  · intro hnone
    by_contra hc
    obtain ⟨t', h1, _, _⟩ := insert_spec N t hwf i D (by omega)
    rw [h1] at hnone
    cases hnone
  · intro hlt
    exact insert_oob N t hwf i D hlt

open ChunkTree in
theorem c4_witness :
    (insert 2 (fromSlice 2 [0, 1, 2]) 5 [9] = none ↔ (fromSlice 2 [0, 1, 2]).len < 5) ∧
    (remove 2 (fromSlice 2 [0, 1, 2]) 1 3 = none ↔
      (((fromSlice 2 [0, 1, 2]).len ≤ 1 ∨ (fromSlice 2 [0, 1, 2]).len < 3) ∧
        ¬((fromSlice 2 [0, 1, 2]).len = 0 ∧ 1 = 3))) :=
  c4_failure_conditions 2 (fromSlice 2 [0, 1, 2]) 5 1 3 [9]
    (by decide) (by decide)

open ChunkTree in
/-- C6: every tree produced by new (= from_slice of the empty slice), by
from_slice, or by any sequence of successful insert and remove operations
(removals naming byte ranges [rs, re), rs ≤ re) satisfies the node-local
size invariant size = left.len + mid.len + right.len at every internal
node. -/
theorem c6_invariant_preserved (N : Nat) (S : List Nat) (ops : List EditOp)
    (t : ChunkTree) (hok : ∀ o ∈ ops, opOk o)
    (h : applyOps N (fromSlice N S) ops = some t) : wf t :=
  applyOps_wf N ops (fromSlice N S) t (fromSlice_wf N S) hok h

open ChunkTree in
theorem c6_witness :
    ∃ t, applyOps 2 (fromSlice 2 [0, 1, 2, 3])
        [.ins 2 [9, 9], .del 1 4] = some t ∧ wf t := by
  rcases hcase : applyOps 2 (fromSlice 2 [0, 1, 2, 3]) [.ins 2 [9, 9], .del 1 4]
    with _ | t
  · exact absurd hcase (by decide)
  · exact ⟨t, rfl,
      c6_invariant_preserved 2 [0, 1, 2, 3] [.ins 2 [9, 9], .del 1 4] t
        (by decide) hcase⟩

/-- C7: structural sharing in the store model of Arc allocation — a
successful insert or remove builds new nodes without touching existing
cells, so any root obtained before the edit still collects exactly the
bytes it collected before: an old root remains a valid, independently
readable snapshot. -/
theorem c7_old_root_unchanged (N fuel : Nat) (st st' : HStore)
    (root r' idx rs re j : Nat) (d : List Nat)
    (hok : storeOk st) (hj : j < st.length)
    (h : insertH N fuel st root idx d = some (st', r') ∨
      removeH N fuel st root rs re = some (st', r')) :
    collectAt st' j = collectAt st j := by
  rcases h with h | h
  · obtain ⟨⟨ext, hext⟩, _, _⟩ := insertH_spec N fuel st root idx d st' r' hok h
    subst hext
    exact collectAt_frame ext hok hj
  · obtain ⟨⟨ext, hext⟩, _, _⟩ := removeH_spec N fuel st root rs re st' r' hok h
    subst hext
    exact collectAt_frame ext hok hj

theorem c7_witness : ∃ p : HStore × Nat,
    insertH 2 1 [HNode.hleaf [5, 6, 7]] 0 1 [9] = some p ∧
    collectAt p.1 0 = collectAt [HNode.hleaf [5, 6, 7]] 0 := by
  rcases hcase : insertH 2 1 [HNode.hleaf [5, 6, 7]] 0 1 [9] with _ | p
  · exact absurd hcase (by decide)
  · exact ⟨p, rfl,
      c7_old_root_unchanged 2 1 [HNode.hleaf [5, 6, 7]] p.1 0 p.2 1 0 0 0 [9]
        (by decide) (by decide) (Or.inl hcase)⟩

theorem findChunk_append_self :
    ∀ (l : List (ChunkIndex × Chunk)) (i : ChunkIndex) (c : Chunk),
      findChunk l i = none → findChunk (l ++ [(i, c)]) i = some c
  | [], i, c, _ => by simp [findChunk]
  | (j, cj) :: rest, i, c, h => by
    simp only [findChunk] at h ⊢
    by_cases hji : j = i
    · rw [if_pos hji] at h; cases h
    · rw [if_neg hji] at h ⊢
      exact findChunk_append_self rest i c h

theorem storeAllEntries_lookup :
    ∀ (l : List (ChunkIndex × Chunk)) (i : ChunkIndex),
      findChunk (storeAllEntries l).1 i = (findChunk l i).map cleanChunk
  | [], i => rfl
  | (j, cj) :: rest, i => by
    match cj with
    | .loaded d true =>
      simp only [storeAllEntries, findChunk]
      by_cases hji : j = i
      · rw [if_pos hji, if_pos hji]; rfl
      · rw [if_neg hji, if_neg hji]
        exact storeAllEntries_lookup rest i
    | .loaded d false =>
      simp only [storeAllEntries, findChunk]
      by_cases hji : j = i
      · rw [if_pos hji, if_pos hji]; rfl
      · rw [if_neg hji, if_neg hji]
        exact storeAllEntries_lookup rest i
    | .empty =>
      simp only [storeAllEntries, findChunk]
      by_cases hji : j = i
      · rw [if_pos hji, if_pos hji]; rfl
      · rw [if_neg hji, if_neg hji]
        exact storeAllEntries_lookup rest i

theorem storeAllEntries_count :
    ∀ (l : List (ChunkIndex × Chunk)) (o : Nat) (d : List Nat),
      ((storeAllEntries l).2).count (.storeEv o d) =
        (l.filter fun p =>
          decide (p.1.offset = o ∧ p.2 = Chunk.loaded d true)).length
  | [], o, d => rfl
  | (j, cj) :: rest, o, d => by
    match cj with
    | .loaded dd true =>
      simp only [storeAllEntries, List.filter]
      rw [List.count_cons]
      rw [storeAllEntries_count rest o d]
      by_cases he : j.offset = o ∧ dd = d
      · rw [if_pos (by simp [he.1, he.2]), decide_eq_true (by simp [he.1, he.2])]
        simp
      · rw [if_neg (by simp; intro h1 h2; exact he ⟨h1, h2⟩)]
        rw [decide_eq_false (by simp; intro h1 h2; exact absurd ⟨h1, h2⟩ he)]
        simp
    | .loaded dd false =>
      simp only [storeAllEntries, List.filter]
      rw [storeAllEntries_count rest o d,
        decide_eq_false (by simp)]
    | .empty =>
      simp only [storeAllEntries, List.filter]
      rw [storeAllEntries_count rest o d,
        decide_eq_false (by simp)]

theorem storeAllEntries_events :
    ∀ (l : List (ChunkIndex × Chunk)), ∀ e ∈ (storeAllEntries l).2,
      ∃ o d, e = .storeEv o d
  | [], e, he => by cases he
  | (j, cj) :: rest, e, he => by
    match cj with
    | .loaded dd true =>
      simp only [storeAllEntries] at he
      rcases List.mem_cons.1 he with h | h
      · exact ⟨j.offset, dd, h⟩
      · exact storeAllEntries_events rest e h
    | .loaded dd false =>
      simp only [storeAllEntries] at he
      exact storeAllEntries_events rest e he
    | .empty =>
      simp only [storeAllEntries] at he
      exact storeAllEntries_events rest e he

theorem storeAllEntries_idem :
    ∀ (l : List (ChunkIndex × Chunk)),
      storeAllEntries (storeAllEntries l).1 = ((storeAllEntries l).1, [])
  | [] => rfl
  | (j, cj) :: rest => by
    match cj with
    | .loaded dd true =>
      simp only [storeAllEntries]
      rw [storeAllEntries_idem rest]
    | .loaded dd false =>
      simp only [storeAllEntries]
      rw [storeAllEntries_idem rest]
    | .empty =>
      simp only [storeAllEntries]
      rw [storeAllEntries_idem rest]

open Memstore in
/-- C8: the first get on an uncached index calls load(offset, chunk_size)
exactly once and caches a Loaded entry with a cleared dirty flag when load
returned data, an Empty entry otherwise; a subsequent get on the same
index returns the cached entry, performs no backing-store call, and leaves
the cache unchanged; get never emits a store call. -/
theorem c8_get_memoizes (load : Nat → Nat → Option (List Nat)) (st : Memstore)
    (i : ChunkIndex) (hmiss : findChunk st.chunks i = none) :
    (st.get load i).2.2 = [.loadEv i.offset i.chunk_size] ∧
    (∀ d, load i.offset i.chunk_size = some d →
      (st.get load i).1 = .loaded d false) ∧
    (load i.offset i.chunk_size = none → (st.get load i).1 = .empty) ∧
    findChunk (st.get load i).2.1.chunks i = some (st.get load i).1 ∧
    (st.get load i).2.1.get load i =
      ((st.get load i).1, (st.get load i).2.1, []) ∧
    (∀ e ∈ (st.get load i).2.2, ∀ o dd, e ≠ .storeEv o dd) := by
  rcases hload : load i.offset i.chunk_size with _ | d
  · have h1 : st.get load i = (.empty, ⟨st.chunks ++ [(i, .empty)]⟩,
        [.loadEv i.offset i.chunk_size]) := by
      rw [Memstore.get, hmiss, hload]
    have hfind : findChunk (st.chunks ++ [(i, Chunk.empty)]) i = some .empty :=
      findChunk_append_self st.chunks i _ hmiss
    have h2 : (Memstore.mk (st.chunks ++ [(i, Chunk.empty)])).get load i =
        (.empty, ⟨st.chunks ++ [(i, .empty)]⟩, []) := by
      rw [Memstore.get]
      rw [show findChunk (Memstore.mk (st.chunks ++ [(i, Chunk.empty)])).chunks i =
        some Chunk.empty from hfind]
    rw [h1]
    refine ⟨rfl, ?_, fun _ => rfl, hfind, h2, ?_⟩
    · intro d hd
      cases hd
    · intro e he o dd
      simp at he
      subst he
      simp
  · have h1 : st.get load i = (.loaded d false,
        ⟨st.chunks ++ [(i, .loaded d false)]⟩,
        [.loadEv i.offset i.chunk_size]) := by
      rw [Memstore.get, hmiss, hload]
    have hfind : findChunk (st.chunks ++ [(i, Chunk.loaded d false)]) i =
        some (.loaded d false) :=
      findChunk_append_self st.chunks i _ hmiss
    have h2 : (Memstore.mk (st.chunks ++ [(i, Chunk.loaded d false)])).get load i =
        (.loaded d false, ⟨st.chunks ++ [(i, .loaded d false)]⟩, []) := by
      rw [Memstore.get]
      rw [show findChunk
        (Memstore.mk (st.chunks ++ [(i, Chunk.loaded d false)])).chunks i =
        some (Chunk.loaded d false) from hfind]
    rw [h1]
    refine ⟨rfl, ?_, ?_, hfind, h2, ?_⟩
    · intro d2 hd
      cases hd
      rfl
    · intro hd
      cases hd
    · intro e he o dd
      simp at he
      subst he
      simp

theorem c8_witness :
    ((Memstore.mk []).get mockLoad ⟨0, 4⟩).2.1.get mockLoad ⟨0, 4⟩ =
      (((Memstore.mk []).get mockLoad ⟨0, 4⟩).1,
        ((Memstore.mk []).get mockLoad ⟨0, 4⟩).2.1, []) :=
  (c8_get_memoizes mockLoad ⟨[]⟩ ⟨0, 4⟩ rfl).2.2.2.2.1

/-- C9: store_all writes back exactly one store(offset, data) event for
each cached Loaded entry whose dirty flag is set and clears that flag;
clean and Empty entries are left unchanged and trigger no call (every
event is a store of a dirty entry); running store_all again with no
intervening mutation performs zero calls. -/
theorem c9_store_all (st : Memstore) :
    (∀ i, findChunk st.store_all.1.chunks i =
        (findChunk st.chunks i).map cleanChunk) ∧
    (∀ o d, st.store_all.2.count (.storeEv o d) =
        (st.chunks.filter fun p =>
          decide (p.1.offset = o ∧ p.2 = Chunk.loaded d true)).length) ∧
    (∀ e ∈ st.store_all.2, ∃ o d, e = .storeEv o d) ∧
    st.store_all.1.store_all = (st.store_all.1, []) := by
  refine ⟨fun i => storeAllEntries_lookup st.chunks i,
    fun o d => storeAllEntries_count st.chunks o d,
    fun e he => storeAllEntries_events st.chunks e he, ?_⟩
  simp [Memstore.store_all, storeAllEntries_idem]

theorem c9_witness :
    (Memstore.mk [(⟨0, 4⟩, Chunk.loaded [1, 2, 3, 4] true),
        (⟨4, 4⟩, Chunk.empty)]).store_all.1.store_all =
      ((Memstore.mk [(⟨0, 4⟩, Chunk.loaded [1, 2, 3, 4] true),
        (⟨4, 4⟩, Chunk.empty)]).store_all.1, []) :=
  (c9_store_all _).2.2.2

theorem fillToFuel_spec :
    ∀ fuel (s : OverlappingChunks) (target : Nat),
      target - s.buffer.length ≤ fuel →
      (fillToFuel fuel s target).buffer =
        s.buffer ++ (s.iter.src.drop s.iter.pos).take (fillAmount s target) ∧
      (fillToFuel fuel s target).current_read_pos =
        s.current_read_pos + fillAmount s target ∧
      (fillToFuel fuel s target).iter =
        ⟨s.iter.src, s.iter.pos + fillAmount s target⟩ ∧
      (fillToFuel fuel s target).buffer_start_pos = s.buffer_start_pos ∧
      (fillToFuel fuel s target).endPos = s.endPos ∧
      (fillToFuel fuel s target).chunk_size = s.chunk_size ∧
      (fillToFuel fuel s target).overlap = s.overlap ∧
      (fillToFuel fuel s target).first_chunk = s.first_chunk := by
  intro fuel
  induction fuel with
  | zero =>
    intro s target h
    have hd : fillAmount s target = 0 := by
      simp only [fillAmount]
      omega
    simp [fillToFuel, hd]
  | succ fuel ih =>
    intro s target h
    by_cases hcond : s.buffer.length < target ∧ s.current_read_pos < s.endPos
    · rw [fillToFuel, if_pos hcond]
      rcases hsome : s.iter.src[s.iter.pos]? with _ | b
      · have hnext : s.iter.next = (none, s.iter) := by
          rw [ByteIterator.next, hsome]
        rw [hnext]
        dsimp only
        have hlen : s.iter.src.length ≤ s.iter.pos := by
          by_contra hlt
          rw [List.getElem?_eq_getElem (by omega)] at hsome
          cases hsome
        have hd : fillAmount s target = 0 := by
          simp only [fillAmount]
          omega
        simp [hd]
      · have hpos : s.iter.pos < s.iter.src.length := by
          by_contra hge
          rw [List.getElem?_eq_none (by omega)] at hsome
          cases hsome
        have hb : s.iter.src[s.iter.pos] = b := by
          have h2 := List.getElem?_eq_getElem hpos
          rw [hsome] at h2
          exact (Option.some.inj h2).symm
        have hnext : s.iter.next = (some b, ⟨s.iter.src, s.iter.pos + 1⟩) := by
          rw [ByteIterator.next, hsome]
        rw [hnext]
        dsimp only
        obtain ⟨ih1, ih2, ih3, ih4, ih5, ih6, ih7, ih8⟩ :=
          ih
            { s with
              iter := ⟨s.iter.src, s.iter.pos + 1⟩
              buffer := s.buffer ++ [b]
              current_read_pos := s.current_read_pos + 1 }
            target (by simp; omega)
        have hd : fillAmount s target =
            fillAmount
              { s with
                iter := ⟨s.iter.src, s.iter.pos + 1⟩
                buffer := s.buffer ++ [b]
                current_read_pos := s.current_read_pos + 1 }
              target + 1 := by
          simp only [fillAmount]
          simp
          omega
        have hdrop : s.iter.src.drop s.iter.pos =
            b :: s.iter.src.drop (s.iter.pos + 1) := by
          rw [List.drop_eq_getElem_cons hpos, hb]
        refine ⟨?_, ?_, ?_, ?_, ?_, ?_, ?_, ?_⟩
        · rw [ih1]
          simp only at ih1 ⊢
          rw [hd, hdrop, List.take_succ_cons]
          simp
        · rw [ih2, hd]
          simp
          omega
        · rw [ih3, hd]
          simp
          omega
        · rw [ih4]
        · rw [ih5]
        · rw [ih6]
        · rw [ih7]
        · rw [ih8]
    · rw [fillToFuel, if_neg hcond]
      have hd : fillAmount s target = 0 := by
        simp only [fillAmount]
        omega
      simp [hd]

theorem drainTo_spec (src : List Nat) (start stop cs ov : Nat)
    (s : OverlappingChunks) (hinv : StInv src start stop cs ov s) :
    (drainTo s).buffer =
      (src.drop (s.current_read_pos -
        keepOf ov s.buffer_start_pos s.current_read_pos)).take
        (keepOf ov s.buffer_start_pos s.current_read_pos) ∧
    (drainTo s).buffer.length =
      keepOf ov s.buffer_start_pos s.current_read_pos ∧
    (drainTo s).buffer_start_pos =
      s.current_read_pos - keepOf ov s.buffer_start_pos s.current_read_pos ∧
    (drainTo s).iter = s.iter ∧
    (drainTo s).current_read_pos = s.current_read_pos ∧
    (drainTo s).endPos = s.endPos ∧
    (drainTo s).chunk_size = s.chunk_size ∧
    (drainTo s).overlap = s.overlap ∧
    (drainTo s).first_chunk = s.first_chunk := by
  obtain ⟨h1, h2, h3, h4, h5, h6, h7, h8, h9, h10, h11⟩ := hinv
  by_cases hov : s.overlap < s.buffer.length
  · have hkeep : keepOf ov s.buffer_start_pos s.current_read_pos = ov := by
      simp only [keepOf]
      omega
    rw [drainTo, if_pos hov]
    refine ⟨?_, ?_, ?_, rfl, rfl, rfl, rfl, rfl, rfl⟩
    · show s.buffer.drop (s.buffer.length - s.overlap) = _
      rw [hkeep, h8, h5, h7, List.drop_take, List.drop_drop]
      have e1 : s.current_read_pos - s.buffer_start_pos -
          (s.current_read_pos - s.buffer_start_pos - ov) = ov := by omega
      have e2 : s.buffer_start_pos +
          (s.current_read_pos - s.buffer_start_pos - ov) =
          s.current_read_pos - ov := by omega
      rw [e1, e2]
    · show (s.buffer.drop (s.buffer.length - s.overlap)).length = _
      rw [List.length_drop, hkeep, h8, h5]
      omega
    · show s.buffer_start_pos + (s.buffer.length - s.overlap) = _
      rw [hkeep, h8, h5]
      omega
  · have hkeep : keepOf ov s.buffer_start_pos s.current_read_pos =
        s.current_read_pos - s.buffer_start_pos := by
      simp only [keepOf]
      omega
    rw [drainTo, if_neg hov]
    have e1 : s.current_read_pos -
        keepOf ov s.buffer_start_pos s.current_read_pos =
        s.buffer_start_pos := by
      rw [hkeep]
      omega
    rw [e1, hkeep]
    exact ⟨h7, h8, rfl, rfl, rfl, rfl, rfl, rfl, rfl⟩

theorem nextChunk_sub (src : List Nat) (start stop cs ov : Nat)
    (s : OverlappingChunks) (hinv : StInv src start stop cs ov s) :
    (addOf src stop cs ov s.buffer_start_pos s.current_read_pos = 0 →
      (nextChunk s).1 = none) ∧
    (0 < addOf src stop cs ov s.buffer_start_pos s.current_read_pos →
      (nextChunk s).1 = some
        ⟨(src.drop (s.current_read_pos -
            keepOf ov s.buffer_start_pos s.current_read_pos)).take
            (keepOf ov s.buffer_start_pos s.current_read_pos +
              addOf src stop cs ov s.buffer_start_pos s.current_read_pos),
          s.current_read_pos -
            keepOf ov s.buffer_start_pos s.current_read_pos,
          min ov (keepOf ov s.buffer_start_pos s.current_read_pos +
            addOf src stop cs ov s.buffer_start_pos s.current_read_pos)⟩ ∧
      StInv src start stop cs ov (nextChunk s).2 ∧
      (nextChunk s).2.buffer_start_pos =
        s.current_read_pos - keepOf ov s.buffer_start_pos s.current_read_pos ∧
      (nextChunk s).2.current_read_pos =
        s.current_read_pos +
          addOf src stop cs ov s.buffer_start_pos s.current_read_pos) := by
  obtain ⟨db, dlen, dbs, dit, drd, dep, dcs, dov, dfc⟩ :=
    drainTo_spec src start stop cs ov s hinv
  obtain ⟨h1, h2, h3, h4, h5, h6, h7, h8, h9, h10, h11⟩ := hinv
  have hfirstb : (s.buffer_start_pos == s.current_read_pos) = false := by
    have : s.buffer_start_pos ≠ s.current_read_pos := by omega
    simp [this]
  by_cases hstop : s.endPos ≤ s.current_read_pos
  · have haddz : addOf src stop cs ov s.buffer_start_pos s.current_read_pos = 0 := by
      simp only [addOf, keepOf]
      omega
    have hfill : fill_next_chunk s = (false, s) := by
      rw [fill_next_chunk, if_neg (by simp [h6]), if_pos hstop]
    exact ⟨fun _ => by simp [nextChunk, hfill], fun hpos => by omega⟩
  · have hkr : keepOf ov s.buffer_start_pos s.current_read_pos ≤
        s.current_read_pos := by
      simp only [keepOf]
      omega
    obtain ⟨f1, f2, f3, f4, f5, f6, f7, f8⟩ :=
      fillToFuel_spec
        (((drainTo s).overlap + (drainTo s).chunk_size) -
          (drainTo s).buffer.length)
        (drainTo s) ((drainTo s).overlap + (drainTo s).chunk_size)
        (Nat.le_refl _)
    have hfa : fillAmount (drainTo s)
        ((drainTo s).overlap + (drainTo s).chunk_size) =
        addOf src stop cs ov s.buffer_start_pos s.current_read_pos := by
      simp only [fillAmount, addOf, dlen, dit, drd, dep, dcs, dov, h1, h2, h3, h4, h5]
    have hfill : fill_next_chunk s =
        (decide ((drainTo s).buffer.length <
          (fillTo (drainTo s)
            ((drainTo s).overlap + (drainTo s).chunk_size)).buffer.length),
          fillTo (drainTo s) ((drainTo s).overlap + (drainTo s).chunk_size)) := by
      rw [fill_next_chunk, if_neg (by simp [h6]), if_neg hstop]
    have hs2buf : (fillTo (drainTo s)
        ((drainTo s).overlap + (drainTo s).chunk_size)).buffer =
        (src.drop (s.current_read_pos -
          keepOf ov s.buffer_start_pos s.current_read_pos)).take
          (keepOf ov s.buffer_start_pos s.current_read_pos +
            addOf src stop cs ov s.buffer_start_pos s.current_read_pos) := by
      rw [fillTo]
      rw [f1, hfa, db, dit, h1, h2]
      rw [List.take_add, List.drop_drop]
      have e1 : s.current_read_pos -
          keepOf ov s.buffer_start_pos s.current_read_pos +
          keepOf ov s.buffer_start_pos s.current_read_pos =
          s.current_read_pos := by omega
      rw [e1]
    have haddle : addOf src stop cs ov s.buffer_start_pos s.current_read_pos ≤
        src.length - s.current_read_pos := by
      simp only [addOf]
      omega
    have hrsrc : s.current_read_pos ≤ src.length := by
      have hlen7 := congrArg List.length h7
      rw [h8] at hlen7
      simp [List.length_take, List.length_drop] at hlen7
      omega
    have hs2len : (fillTo (drainTo s)
        ((drainTo s).overlap + (drainTo s).chunk_size)).buffer.length =
        keepOf ov s.buffer_start_pos s.current_read_pos +
          addOf src stop cs ov s.buffer_start_pos s.current_read_pos := by
      rw [hs2buf]
      simp only [List.length_take, List.length_drop]
      omega
    have hgrow : ((drainTo s).buffer.length <
        (fillTo (drainTo s)
          ((drainTo s).overlap + (drainTo s).chunk_size)).buffer.length) ↔
        0 < addOf src stop cs ov s.buffer_start_pos s.current_read_pos := by
      rw [hs2len, dlen]
      omega
    constructor
    · intro haddz
      have hgrowf : ¬ ((drainTo s).buffer.length <
          (fillTo (drainTo s)
            ((drainTo s).overlap + (drainTo s).chunk_size)).buffer.length) := by
        rw [hgrow, haddz]
        omega
      simp [nextChunk, hfill, hgrowf]
    · intro hpos
      have hgrowt : ((drainTo s).buffer.length <
          (fillTo (drainTo s)
            ((drainTo s).overlap + (drainTo s).chunk_size)).buffer.length) :=
        hgrow.2 hpos
      have hrw : nextChunk s =
          (some ⟨(fillTo (drainTo s)
              ((drainTo s).overlap + (drainTo s).chunk_size)).buffer,
            (fillTo (drainTo s)
              ((drainTo s).overlap + (drainTo s).chunk_size)).buffer_start_pos,
            min (fillTo (drainTo s)
              ((drainTo s).overlap + (drainTo s).chunk_size)).overlap
              (fillTo (drainTo s)
                ((drainTo s).overlap + (drainTo s).chunk_size)).buffer.length⟩,
            fillTo (drainTo s)
              ((drainTo s).overlap + (drainTo s).chunk_size)) := by
        rw [nextChunk, hfill]
        simp [hgrowt, hfirstb]
      have hbs2 : (fillTo (drainTo s)
          ((drainTo s).overlap + (drainTo s).chunk_size)).buffer_start_pos =
          s.current_read_pos -
            keepOf ov s.buffer_start_pos s.current_read_pos := by
        rw [fillTo, f4, dbs]
      have hrd2 : (fillTo (drainTo s)
          ((drainTo s).overlap + (drainTo s).chunk_size)).current_read_pos =
          s.current_read_pos +
            addOf src stop cs ov s.buffer_start_pos s.current_read_pos := by
        rw [fillTo, f2, hfa, drd]
      have hit2 : (fillTo (drainTo s)
          ((drainTo s).overlap + (drainTo s).chunk_size)).iter =
          ⟨src, s.current_read_pos +
            addOf src stop cs ov s.buffer_start_pos s.current_read_pos⟩ := by
        rw [fillTo, f3, hfa, dit, h1, h2]
      have hep2 : (fillTo (drainTo s)
          ((drainTo s).overlap + (drainTo s).chunk_size)).endPos = stop := by
        rw [fillTo, f5, dep, h3]
      have hcs2 : (fillTo (drainTo s)
          ((drainTo s).overlap + (drainTo s).chunk_size)).chunk_size = cs := by
        rw [fillTo, f6, dcs, h4]
      have hov2 : (fillTo (drainTo s)
          ((drainTo s).overlap + (drainTo s).chunk_size)).overlap = ov := by
        rw [fillTo, f7, dov, h5]
      have hfc2 : (fillTo (drainTo s)
          ((drainTo s).overlap + (drainTo s).chunk_size)).first_chunk = false := by
        rw [fillTo, f8, dfc, h6]
      have hkle : keepOf ov s.buffer_start_pos s.current_read_pos ≤
          s.current_read_pos - s.buffer_start_pos := by
        simp only [keepOf]
        omega
      rw [hrw]
      refine ⟨?_, ?_, hbs2, hrd2⟩
      · rw [hs2len, hs2buf, hbs2, hov2]
      · refine ⟨?_, ?_, ?_, ?_, ?_, ?_, ?_, ?_, ?_, ?_, ?_⟩
        · rw [hit2]
        · rw [hit2, hrd2]
        · exact hep2
        · exact hcs2
        · exact hov2
        · exact hfc2
        · rw [hs2buf, hbs2, hrd2]
          have e1 : s.current_read_pos +
              addOf src stop cs ov s.buffer_start_pos s.current_read_pos -
              (s.current_read_pos -
                keepOf ov s.buffer_start_pos s.current_read_pos) =
              keepOf ov s.buffer_start_pos s.current_read_pos +
                addOf src stop cs ov s.buffer_start_pos s.current_read_pos := by
            omega
          rw [e1]
        · rw [hs2len, hbs2, hrd2]
          omega
        · rw [hbs2]
          omega
        · rw [hbs2, hrd2]
          omega
        · rw [hrd2]
          have : addOf src stop cs ov s.buffer_start_pos s.current_read_pos ≤
              stop - s.current_read_pos := by
            simp only [addOf]
            omega
          omega

theorem fillTo_spec (s : OverlappingChunks) (target : Nat) :
    (fillTo s target).buffer =
      s.buffer ++ (s.iter.src.drop s.iter.pos).take (fillAmount s target) ∧
    (fillTo s target).current_read_pos =
      s.current_read_pos + fillAmount s target ∧
    (fillTo s target).iter = ⟨s.iter.src, s.iter.pos + fillAmount s target⟩ ∧
    (fillTo s target).buffer_start_pos = s.buffer_start_pos ∧
    (fillTo s target).endPos = s.endPos ∧
    (fillTo s target).chunk_size = s.chunk_size ∧
    (fillTo s target).overlap = s.overlap ∧
    (fillTo s target).first_chunk = s.first_chunk :=
  fillToFuel_spec (target - s.buffer.length) s target (Nat.le_refl _)

theorem nextChunk_first (src : List Nat) (start stop cs ov : Nat) :
    (min cs (min (stop - start) (src.length - start)) = 0 →
      (nextChunk (OverlappingChunks.new ⟨src, start⟩ start stop cs ov)).1 =
        none) ∧
    (0 < min cs (min (stop - start) (src.length - start)) →
      (nextChunk (OverlappingChunks.new ⟨src, start⟩ start stop cs ov)).1 =
        some ⟨(src.drop start).take
            (min cs (min (stop - start) (src.length - start))), start, 0⟩ ∧
      StInv src start stop cs ov
        (nextChunk (OverlappingChunks.new ⟨src, start⟩ start stop cs ov)).2 ∧
      (nextChunk (OverlappingChunks.new ⟨src, start⟩
        start stop cs ov)).2.buffer_start_pos = start ∧
      (nextChunk (OverlappingChunks.new ⟨src, start⟩
        start stop cs ov)).2.current_read_pos =
        start + min cs (min (stop - start) (src.length - start))) := by
  have hfill : fill_next_chunk (OverlappingChunks.new ⟨src, start⟩
      start stop cs ov) =
      (!(fillTo ⟨⟨src, start⟩, [], start, start, stop, cs, ov, false⟩
          cs).buffer.isEmpty,
        fillTo ⟨⟨src, start⟩, [], start, start, stop, cs, ov, false⟩ cs) := rfl
  obtain ⟨f1, f2, f3, f4, f5, f6, f7, f8⟩ :=
    fillTo_spec ⟨⟨src, start⟩, [], start, start, stop, cs, ov, false⟩ cs
  have hfa : fillAmount ⟨⟨src, start⟩, [], start, start, stop, cs, ov, false⟩
      cs = min cs (min (stop - start) (src.length - start)) := by
    simp [fillAmount]
  have hbuf : (fillTo ⟨⟨src, start⟩, [], start, start, stop, cs, ov, false⟩
      cs).buffer = (src.drop start).take
      (min cs (min (stop - start) (src.length - start))) := by
    rw [f1, hfa]
    simp
  have hlen : (fillTo ⟨⟨src, start⟩, [], start, start, stop, cs, ov, false⟩
      cs).buffer.length = min cs (min (stop - start) (src.length - start)) := by
    rw [hbuf]
    simp only [List.length_take, List.length_drop]
    omega
  constructor
  · intro hz
    have hempty : (fillTo ⟨⟨src, start⟩, [], start, start, stop, cs, ov, false⟩
        cs).buffer = [] := by
      rw [hbuf, hz]
      simp
    simp [nextChunk, hfill, hempty]
  · intro hpos
    have hne : (fillTo ⟨⟨src, start⟩, [], start, start, stop, cs, ov, false⟩
        cs).buffer.isEmpty = false := by
      rw [List.isEmpty_eq_false_iff_exists_mem]
      refine ⟨(fillTo _ cs).buffer.head ?_, List.head_mem _⟩
      intro hc
      have := congrArg List.length hc
      rw [hlen] at this
      simp at this
      omega
    have hrw : nextChunk (OverlappingChunks.new ⟨src, start⟩
        start stop cs ov) =
        (some ⟨(fillTo ⟨⟨src, start⟩, [], start, start, stop, cs, ov, false⟩
            cs).buffer,
          (fillTo ⟨⟨src, start⟩, [], start, start, stop, cs, ov, false⟩
            cs).buffer_start_pos, 0⟩,
          fillTo ⟨⟨src, start⟩, [], start, start, stop, cs, ov, false⟩ cs) := by
      rw [nextChunk, hfill]
      simp [hne, OverlappingChunks.new]
    rw [hrw]
    refine ⟨by rw [hbuf, f4], ?_, by rw [f4], by rw [f2, hfa]⟩
    refine ⟨?_, ?_, ?_, ?_, ?_, ?_, ?_, ?_, ?_, ?_, ?_⟩
    · rw [f3]
    · rw [f3, f2]
    · rw [f5]
    · rw [f6]
    · rw [f7]
    · rw [f8]
    · rw [hbuf, f4, f2, hfa]
      have e1 : start + min cs (min (stop - start) (src.length - start)) -
          start = min cs (min (stop - start) (src.length - start)) := by omega
      rw [e1]
    · rw [hlen, f4, f2, hfa]
      dsimp only
      omega
    · rw [f4]
    · rw [f4, f2, hfa]
      dsimp only
      omega
    · rw [f2, hfa]
      dsimp only
      omega

/-- Refinement of the subsequent-window phase: from any state satisfying
the invariant, the machine produces exactly the specified windows. -/
theorem runChunks_sub (src : List Nat) (start stop cs ov : Nat) :
    ∀ fuel s, StInv src start stop cs ov s →
      runChunks fuel s =
        specWindows src stop cs ov fuel s.buffer_start_pos s.current_read_pos
  | 0, s, _ => rfl
  | fuel+1, s, hinv => by
    obtain ⟨hz, hp⟩ := nextChunk_sub src start stop cs ov s hinv
    by_cases hadd : addOf src stop cs ov s.buffer_start_pos
        s.current_read_pos = 0
    · have h1 := hz hadd
      have heq : nextChunk s = (none, (nextChunk s).2) := by rw [← h1]
      rw [runChunks, heq]
      dsimp only
      rw [specWindows, if_pos hadd]
    · obtain ⟨h1, h2, h3, h4⟩ := hp (Nat.pos_of_ne_zero hadd)
      have heq : nextChunk s =
          (some ⟨(src.drop (s.current_read_pos -
              keepOf ov s.buffer_start_pos s.current_read_pos)).take
              (keepOf ov s.buffer_start_pos s.current_read_pos +
                addOf src stop cs ov s.buffer_start_pos s.current_read_pos),
            s.current_read_pos -
              keepOf ov s.buffer_start_pos s.current_read_pos,
            min ov (keepOf ov s.buffer_start_pos s.current_read_pos +
              addOf src stop cs ov s.buffer_start_pos s.current_read_pos)⟩,
            (nextChunk s).2) := by rw [← h1]
      rw [runChunks, heq]
      dsimp only
      rw [specWindows, if_neg hadd]
      congr 1
      rw [runChunks_sub src start stop cs ov fuel (nextChunk s).2 h2, h3, h4]

/-- Refinement: the iterator built on a cursor at start produces exactly
the specified window sequence — for every fuel, with no side conditions. -/
theorem runChunks_eq_specSearch (src : List Nat) (start stop cs ov : Nat) :
    ∀ fuel,
      runChunks fuel (OverlappingChunks.new ⟨src, start⟩ start stop cs ov) =
        specSearch src start stop cs ov fuel
  | 0 => rfl
  | fuel+1 => by
    obtain ⟨hz, hp⟩ := nextChunk_first src start stop cs ov
    by_cases hn1 : min cs (min (stop - start) (src.length - start)) = 0
    · have h1 := hz hn1
      have heq : nextChunk (OverlappingChunks.new ⟨src, start⟩
          start stop cs ov) =
          (none, (nextChunk (OverlappingChunks.new ⟨src, start⟩
            start stop cs ov)).2) := by rw [← h1]
      rw [runChunks, heq]
      dsimp only
      rw [specSearch, if_pos hn1]
    · obtain ⟨h1, h2, h3, h4⟩ := hp (Nat.pos_of_ne_zero hn1)
      have heq : nextChunk (OverlappingChunks.new ⟨src, start⟩
          start stop cs ov) =
          (some ⟨(src.drop start).take
              (min cs (min (stop - start) (src.length - start))), start, 0⟩,
            (nextChunk (OverlappingChunks.new ⟨src, start⟩
              start stop cs ov)).2) := by rw [← h1]
      rw [runChunks, heq]
      dsimp only
      rw [specSearch, if_neg hn1]
      congr 1
      rw [runChunks_sub src start stop cs ov fuel _ h2, h3, h4]

/-- C5 counterexample: over five bytes with chunk_size 1 and overlap 3 the
iterator's second window has buffer length 4 — after retaining
min(overlap, 1) = 1 byte the fill appends overlap + chunk_size - 1 = 3
new bytes, more than the claimed "up to chunk_size additional bytes" —
so the yielded sequence disagrees with the claim's two-phase algorithm
from the second window on. -/
theorem c5_counterexample :
    runChunks 6 (OverlappingChunks.new ⟨[1, 1, 1, 1, 1], 0⟩ 0 5 1 3) ≠
      specSearchOrig [1, 1, 1, 1, 1] 0 5 1 3 6 ∧
    ((runChunks 6 (OverlappingChunks.new ⟨[1, 1, 1, 1, 1], 0⟩ 0 5 1 3)).getD 1
      ⟨[], 0, 0⟩).buffer.length = 4 := by
  decide

/-- C5 (amended): the window sequence follows the two-phase algorithm in
which the first window holds up to chunk_size bytes with valid_start 0
(ending the iteration if none were read) and each subsequent window drops
all but the trailing overlap bytes, advances the absolute start by the
amount dropped, and refills the buffer up to overlap + chunk_size total
bytes — appending more than chunk_size when fewer than overlap bytes were
retained — ending the iteration if none were appended and carrying
valid_start = min(overlap, buffer.len()); in particular the 16-byte
example yields exactly the windows "01234567" (abs 0, valid_start 0) and
"56789abcdef" (abs 5, valid_start 3). -/
theorem c5_window_sequence :
    (∀ (src : List Nat) (start stop cs ov fuel : Nat),
      runChunks fuel (OverlappingChunks.new ⟨src, start⟩ start stop cs ov) =
        specSearch src start stop cs ov fuel) ∧
    runChunks 17 (OverlappingChunks.new ⟨SRC16, 0⟩ 0 16 8 3) =
      [⟨[48, 49, 50, 51, 52, 53, 54, 55], 0, 0⟩,
        ⟨[53, 54, 55, 56, 57, 97, 98, 99, 100, 101, 102], 5, 3⟩] :=
  ⟨fun src start stop cs ov fuel =>
    runChunks_eq_specSearch src start stop cs ov fuel, by decide⟩

theorem take_eq_take_length (xs : List Nat) (n : Nat) :
    xs.take n = xs.take (xs.take n).length := by
  rw [List.length_take]
  rcases Nat.le_total n xs.length with h | h
  · rw [Nat.min_eq_left h]
  · rw [Nat.min_eq_right h, List.take_of_length_le h, List.take_length]

theorem specWindows_mem (src : List Nat) (stop cs ov : Nat) :
    ∀ fuel a r c, a ≤ r → r ≤ stop →
      c ∈ specWindows src stop cs ov fuel a r →
      c.buffer.length ≤ cs + ov ∧
      c.absolute_pos + c.buffer.length ≤ stop ∧
      c.buffer = (src.drop c.absolute_pos).take c.buffer.length ∧
      a ≤ c.absolute_pos
  | 0, a, r, c, _, _, hc => absurd hc (List.not_mem_nil c)
  | fuel+1, a, r, c, har, hrs, hc => by
    by_cases hadd : addOf src stop cs ov a r = 0
    · rw [specWindows, if_pos hadd] at hc
      cases hc
    · rw [specWindows, if_neg hadd] at hc
      have hk1 : keepOf ov a r ≤ ov := by
        simp only [keepOf]
        omega
      have hk2 : keepOf ov a r ≤ r - a := by
        simp only [keepOf]
        omega
      have ha1 : addOf src stop cs ov a r ≤ ov + cs - keepOf ov a r := by
        simp only [addOf]
        omega
      have ha2 : addOf src stop cs ov a r ≤ stop - r := by
        simp only [addOf]
        omega
      rcases List.mem_cons.1 hc with hc | hc
      · subst hc
        dsimp only
        refine ⟨?_, ?_, ?_, ?_⟩
        · simp only [List.length_take, List.length_drop]
          omega
        · simp only [List.length_take, List.length_drop]
          omega
        · exact take_eq_take_length _ _
        · omega
      · obtain ⟨g1, g2, g3, g4⟩ := specWindows_mem src stop cs ov fuel
          (r - keepOf ov a r) (r + addOf src stop cs ov a r) c
          (by omega) (by omega) hc
        exact ⟨g1, g2, g3, by omega⟩

open OverlappingChunks in
/-- C10: every window yielded by the iterator built on a cursor at start
satisfies buffer.len ≤ chunk_size + overlap, lies entirely inside
[start, end) — start ≤ absolute_pos and absolute_pos + buffer.len ≤ end —
and its buffer is exactly the consecutive source bytes starting at its
absolute position. -/
theorem c10_window_invariants (src : List Nat)
    (start stop cs ov fuel : Nat) (c : ChunkInfo)
    (hc : c ∈ runChunks fuel
      (OverlappingChunks.new ⟨src, start⟩ start stop cs ov)) :
    c.buffer.length ≤ cs + ov ∧
    c.absolute_pos + c.buffer.length ≤ stop ∧
    start ≤ c.absolute_pos ∧
    c.buffer = (src.drop c.absolute_pos).take c.buffer.length := by
  rw [runChunks_eq_specSearch] at hc
  match fuel, hc with
  | fuel+1, hc => ?_
  by_cases hn1 : min cs (min (stop - start) (src.length - start)) = 0
  · rw [specSearch, if_pos hn1] at hc
    cases hc
  · rw [specSearch, if_neg hn1] at hc
    rcases List.mem_cons.1 hc with hc | hc
    · subst hc
      dsimp only
      refine ⟨?_, ?_, Nat.le_refl _, take_eq_take_length _ _⟩
      · simp only [List.length_take, List.length_drop]
        omega
      · simp only [List.length_take, List.length_drop]
        omega
    · obtain ⟨g1, g2, g3, g4⟩ := specWindows_mem src stop cs ov fuel start
        (start + min cs (min (stop - start) (src.length - start))) c
        (by omega) (by omega) hc
      exact ⟨g1, g2, g4, g3⟩

theorem c10_witness :
    (ChunkInfo.mk [53, 54, 55, 56, 57, 97, 98, 99, 100, 101, 102] 5
        3).buffer.length ≤ 8 + 3 ∧
    (ChunkInfo.mk [53, 54, 55, 56, 57, 97, 98, 99, 100, 101, 102] 5
        3).absolute_pos +
      (ChunkInfo.mk [53, 54, 55, 56, 57, 97, 98, 99, 100, 101, 102] 5
        3).buffer.length ≤ 16 ∧
    0 ≤ (ChunkInfo.mk [53, 54, 55, 56, 57, 97, 98, 99, 100, 101, 102] 5
        3).absolute_pos ∧
    (ChunkInfo.mk [53, 54, 55, 56, 57, 97, 98, 99, 100, 101, 102] 5
        3).buffer =
      (SRC16.drop (ChunkInfo.mk [53, 54, 55, 56, 57, 97, 98, 99, 100, 101,
        102] 5 3).absolute_pos).take
        (ChunkInfo.mk [53, 54, 55, 56, 57, 97, 98, 99, 100, 101,
          102] 5 3).buffer.length :=
  c10_window_invariants SRC16 0 16 8 3 17
    ⟨[53, 54, 55, 56, 57, 97, 98, 99, 100, 101, 102], 5, 3⟩ (by decide)

/-- A slice of a slice of the source is a slice of the source. -/
theorem slice_of_slice (src : List Nat) (a n i L : Nat) (h : i + L ≤ n) :
    (((src.drop a).take n).drop i).take L = (src.drop (a + i)).take L := by
  rw [List.drop_take, List.take_take, List.drop_drop]
  congr 1
  omega

/-- A pattern occurrence read off the source bounds the source length. -/
theorem slice_eq_bound (src P : List Nat) (q : Nat) (hP : 1 ≤ P.length)
    (h : (src.drop q).take P.length = P) : q + P.length ≤ src.length := by
  have hl := congrArg List.length h
  simp only [List.length_take, List.length_drop] at hl
  omega

/-- Counting lemma for one window whose buffer is the exact source slice
[a, a+n): a position q is reported exactly once when the occurrence lies
inside the window and ends strictly after a + valid_start, and never
otherwise. -/
theorem acceptedOf_count (src P : List Nat) (a n v q : Nat)
    (hP : 1 ≤ P.length) (hn : a + n ≤ src.length) :
    (acceptedOf P ⟨(src.drop a).take n, a, v⟩).count q =
      if a ≤ q ∧ q + P.length ≤ a + n ∧ a + v < q + P.length ∧
          (src.drop q).take P.length = P then 1 else 0 := by
  have hlen : ((src.drop a).take n).length = n := by
    simp only [List.length_take, List.length_drop]
    omega
  have hnodup : (((List.range (n + 1 - P.length)).filter fun i =>
      decide ((((src.drop a).take n).drop i).take P.length = P) &&
        decide (v < i + P.length)).map fun i => a + i).Nodup := by
    refine List.Nodup.map ?_ (List.Nodup.filter _ (List.nodup_range _))
    intro x y hxy
    dsimp only at hxy
    omega
  have hform : acceptedOf P ⟨(src.drop a).take n, a, v⟩ =
      ((List.range (n + 1 - P.length)).filter fun i =>
        decide ((((src.drop a).take n).drop i).take P.length = P) &&
          decide (v < i + P.length)).map fun i => a + i := by
    simp only [acceptedOf, hlen]
  rw [hform]
  by_cases hq : a ≤ q ∧ q + P.length ≤ a + n ∧ a + v < q + P.length ∧
      (src.drop q).take P.length = P
  · rw [if_pos hq]
    obtain ⟨hq1, hq2, hq3, hq4⟩ := hq
    refine List.count_eq_one_of_mem hnodup ?_
    rw [List.mem_map]
    refine ⟨q - a, ?_, by omega⟩
    rw [List.mem_filter]
    refine ⟨List.mem_range.2 (by omega), ?_⟩
    rw [Bool.and_eq_true, decide_eq_true_eq, decide_eq_true_eq]
    constructor
    · rw [slice_of_slice src a n (q - a) P.length (by omega)]
      rw [show a + (q - a) = q from by omega]
      exact hq4
    · omega
  · rw [if_neg hq]
    rw [List.count_eq_zero]
    intro hmem
    rw [List.mem_map] at hmem
    obtain ⟨i, hi, hiq⟩ := hmem
    rw [List.mem_filter] at hi
    obtain ⟨hir, hip⟩ := hi
    rw [List.mem_range] at hir
    rw [Bool.and_eq_true, decide_eq_true_eq, decide_eq_true_eq] at hip
    obtain ⟨hslice, hacc⟩ := hip
    rw [slice_of_slice src a n i P.length (by omega)] at hslice
    exact hq ⟨by omega, by omega, by omega, by rw [show q = a + i from by omega]; exact hslice⟩

/-- Counting lemma for the subsequent-window phase: starting from a state
whose window retains the full overlap (or that has already reached the end
position or the source end), the positions reported over the remaining
windows contain each pattern occurrence ending after the read position r
and by the end position exactly once, and nothing else. -/
theorem specWindows_count (src P : List Nat) (stop cs ov : Nat)
    (hP : 1 ≤ P.length) (hov : P.length - 1 ≤ ov) (hcs1 : 1 ≤ cs)
    (hcsov : ov ≤ cs) :
    ∀ fuel a r q, (ov ≤ r - a ∨ stop ≤ r ∨ src.length ≤ r) →
      r ≤ stop → stop - r < fuel →
      (reportsOf P (specWindows src stop cs ov fuel a r)).count q =
        if r < q + P.length ∧ q + P.length ≤ stop ∧
            (src.drop q).take P.length = P then 1 else 0
  | 0, a, r, q, _, _, hfuel => absurd hfuel (by omega)
  | fuel+1, a, r, q, hdis, hrs, hfuel => by
    by_cases hadd : addOf src stop cs ov a r = 0
    · rw [specWindows, if_pos hadd]
      simp only [reportsOf, List.count_nil]
      rw [if_neg]
      rintro ⟨hc1, hc2, hc3⟩
      have hb := slice_eq_bound src P q hP hc3
      have hk : keepOf ov a r ≤ ov := by
        simp only [keepOf]
        omega
      simp only [addOf] at hadd
      omega
    · have hova : ov ≤ r - a := by
        rcases hdis with h | h | h
        · exact h
        · exfalso
          apply hadd
          have hk : keepOf ov a r ≤ ov := by
            simp only [keepOf]
            omega
          simp only [addOf]
          omega
        · exfalso
          apply hadd
          have hk : keepOf ov a r ≤ ov := by
            simp only [keepOf]
            omega
          simp only [addOf]
          omega
      have hkeep : keepOf ov a r = ov := by
        simp only [keepOf]
        omega
      have hpos := Nat.pos_of_ne_zero hadd
      have ha2 : addOf src stop cs ov a r ≤ stop - r := by
        simp only [addOf]
        omega
      have ha3 : addOf src stop cs ov a r ≤ src.length - r := by
        simp only [addOf]
        omega
      rw [specWindows, if_neg hadd]
      simp only [reportsOf]
      rw [List.count_append, hkeep]
      have hsrcb : r - ov + (ov + addOf src stop cs ov a r) ≤ src.length := by
        omega
      rw [acceptedOf_count src P (r - ov) (ov + addOf src stop cs ov a r)
        (min ov (ov + addOf src stop cs ov a r)) q hP hsrcb]
      rw [specWindows_count src P stop cs ov hP hov hcs1 hcsov fuel (r - ov)
        (r + addOf src stop cs ov a r) q (Or.inl (by omega)) (by omega)
        (by omega)]
      have hmin : min ov (ov + addOf src stop cs ov a r) = ov := by omega
      rw [hmin]
      by_cases hsl : (src.drop q).take P.length = P
      · have hqb := slice_eq_bound src P q hP hsl
        simp only [hsl, eq_self_iff_true, and_true]
        split_ifs <;> omega
      · rw [if_neg (fun h => hsl h.2.2.2), if_neg (fun h => hsl h.2.2),
          if_neg (fun h => hsl h.2.2)]

/-- C1 counterexample: with pattern length 1, overlap 3 ≥ L - 1 and
chunk_size 1 over the five-byte source [1,1,1,1,1], the occurrence at
absolute position 1 lies in the scanned range but is reported zero times:
the first window only covers [0,1), and the second window carries
valid_start 3 although the previous window scanned only up to position 1,
so matches ending at positions 2 and 3 are rejected and never reported. -/
theorem c1_counterexample :
    (reportsOf [1] (runChunks 6
      (OverlappingChunks.new ⟨[1, 1, 1, 1, 1], 0⟩ 0 5 1 3))).count 1 = 0 ∧
    (0 : Nat) ≤ 1 ∧ 1 + 1 ≤ 5 ∧
    (([1, 1, 1, 1, 1] : List Nat).drop 1).take 1 = [1] := by
  decide

/-- C1 (amended): for every byte source, pattern of length L ≥ 1 and
iterator parameters with overlap ≥ L - 1 and additionally
chunk_size ≥ overlap and chunk_size ≥ 1, if the caller searches each
yielded window's entire buffer and accepts a match only when its end
offset is strictly greater than valid_start, reporting
absolute_pos + local match start, then every occurrence of the pattern in
the scanned range [start, end) is reported exactly once at its true
absolute offset, and nothing else is reported. -/
theorem c1_search_reports (src P : List Nat) (start stop cs ov fuel q : Nat)
    (hP : 1 ≤ P.length) (hov : P.length - 1 ≤ ov) (hcs1 : 1 ≤ cs)
    (hcsov : ov ≤ cs) (hfuel : stop - start < fuel) :
    (reportsOf P (runChunks fuel
      (OverlappingChunks.new ⟨src, start⟩ start stop cs ov))).count q =
      if start ≤ q ∧ q + P.length ≤ stop ∧
          (src.drop q).take P.length = P then 1 else 0 := by
  rw [runChunks_eq_specSearch]
  match fuel, hfuel with
  | fuel+1, hfuel => ?_
  by_cases hn1 : min cs (min (stop - start) (src.length - start)) = 0
  · rw [specSearch, if_pos hn1]
    simp only [reportsOf, List.count_nil]
    rw [if_neg]
    rintro ⟨hc1, hc2, hc3⟩
    have hb := slice_eq_bound src P q hP hc3
    omega
  · rw [specSearch, if_neg hn1]
    simp only [reportsOf]
    rw [List.count_append]
    have hn1pos := Nat.pos_of_ne_zero hn1
    have hsrcb : start + min cs (min (stop - start) (src.length - start)) ≤
        src.length := by omega
    rw [acceptedOf_count src P start
      (min cs (min (stop - start) (src.length - start))) 0 q hP hsrcb]
    have hdis : ov ≤ start + min cs (min (stop - start)
        (src.length - start)) - start ∨
        stop ≤ start + min cs (min (stop - start) (src.length - start)) ∨
        src.length ≤ start + min cs (min (stop - start)
          (src.length - start)) := by
      omega
    rw [specWindows_count src P stop cs ov hP hov hcs1 hcsov fuel start
      (start + min cs (min (stop - start) (src.length - start))) q hdis
      (by omega) (by omega)]
    by_cases hsl : (src.drop q).take P.length = P
    · have hqb := slice_eq_bound src P q hP hsl
      simp only [hsl, eq_self_iff_true, and_true]
      split_ifs <;> omega
    · rw [if_neg (fun h => hsl h.2.2.2), if_neg (fun h => hsl h.2.2),
        if_neg (fun h => hsl h.2.2)]

theorem c1_witness :
    (reportsOf [54, 55, 56, 57, 97] (runChunks 17
      (OverlappingChunks.new ⟨SRC16, 0⟩ 0 16 8 4))).count 6 = 1 :=
  (c1_search_reports SRC16 [54, 55, 56, 57, 97] 0 16 8 4 17 6
    (by decide) (by decide) (by decide) (by decide) (by decide)).trans
    (by decide)
